import Mathlib

/-
  Verification of the PPSSP random-instance generator.

  This file gives a shallow embedding of the instance-generation code
  (src/datagen.py, src/project.py, src/instance_parameters.py,
  src/project_problem_instance.py, src/synergy.py) and proves / refutes the
  specified properties of the generator.

  Modelling conventions:
  * Python floats are modelled as real numbers (`ℝ`); parameter records use `ℚ`
    where the code only does exact arithmetic on them.
  * Randomness is modelled by an explicit oracle (`Draws`): every call of a
    numpy sampling routine reads a dedicated component of the oracle, indexed
    by a call counter.  Well-formedness predicates state exactly the guarantees
    numpy gives for those draws (e.g. `np.random.choice(..., replace=False)`
    returns pairwise distinct elements of the pool).
  * `while` loops that can in principle run forever (the shape resampling loop,
    the synergy rejection loop) take explicit fuel and return `Option`;
    exceptions raised by the Python code (e.g. `np.random.randint(1, v)` with
    `v ≤ 1`, or `np.zeros(d)` with `d < 1`) are modelled as `none`.
    A "completed generation run" is a run that returns `some`.
-/

set_option maxHeartbeats 1000000

namespace PPSSP

/-! ### datagen.py -/

/-- `np.round` as used by `value.round()` in `create_random_projects`
    (src/project.py line 128): round half to even (banker's rounding). -/
noncomputable def npRound (x : ℝ) : ℤ :=
  if x - ⌊x⌋ = 1/2 then (if 2 ∣ ⌊x⌋ then ⌊x⌋ else ⌊x⌋ + 1) else round x

/-- `_weibull_estimate` (src/datagen.py lines 78-100): normalized Weibull CDF,
    with the defensive branches for `cdf_value < 0` and `cdf_value >= 1`. -/
noncomputable def weibull_estimate (cdf_value shape scale : ℝ) : ℝ :=
  if cdf_value < 0 then 0
  else if 1 ≤ cdf_value then 1
  else (1 - Real.exp (-((cdf_value / scale) ^ shape))) /
       (1 - Real.exp (-((1 / scale) ^ shape)))

/-- The allocation loop of `fuzzy_weibull_cost_distribution`
    (src/datagen.py lines 60-73): `remaining` counts the iterations of
    `for t in range(duration - 1)` still to be executed; when the loop is done
    the final period absorbs the residual `total_cost - cumulative_cost`. -/
noncomputable def fuzzy_weibull_iter (total_cost : ℝ) (duration : ℕ) (shape scale : ℝ) :
    ℕ → ℕ → ℝ → ℝ → List ℝ
  | 0, _, _, cumulative_cost => [total_cost - cumulative_cost]
  | remaining + 1, t, prev_sample, cumulative_cost =>
      let sample := weibull_estimate (((t : ℝ) + 1) / (duration : ℝ)) shape scale
      let cost : ℝ := ((⌊(sample - prev_sample) * total_cost⌋ : ℤ) : ℝ)
      cost :: fuzzy_weibull_iter total_cost duration shape scale remaining (t + 1) sample
        (cumulative_cost + cost)

/-- The `while fuzzy_shape < 0.01` resampling loop of
    `fuzzy_weibull_cost_distribution` (src/datagen.py lines 53-55), over the
    stream of `np.random.normal` draws, with explicit fuel.  `none` models the
    case where the loop does not exit within the fuel bound. -/
noncomputable def resample_shape (draws : ℕ → ℝ) : ℕ → Option ℝ
  | 0 => none
  | fuel + 1 =>
      if draws 0 < 0.01 then resample_shape (fun j => draws (j + 1)) fuel
      else some (draws 0)

/-- `fuzzy_weibull_cost_distribution` (src/datagen.py lines 35-75).
    `shape_draws` is the stream of normal draws for the shape parameter,
    `scale_draw` the normal draw for the scale parameter (floored at `0.1` by
    `max`, as in the source). -/
noncomputable def fuzzy_weibull_cost_distribution (shape_draws : ℕ → ℝ) (scale_draw : ℝ)
    (fuel : ℕ) (total_cost : ℝ) (duration : ℕ) : Option (List ℝ) :=
  (resample_shape shape_draws fuel).map fun fuzzy_shape =>
    fuzzy_weibull_iter total_cost duration fuzzy_shape (max scale_draw 0.1)
      (duration - 1) 0 0 0

/-! ### Lemmas about the temporal allocator -/

theorem resample_shape_ge {draws : ℕ → ℝ} {fuel : ℕ} {s : ℝ}
    (h : resample_shape draws fuel = some s) : 0.01 ≤ s := by
  induction fuel generalizing draws with
  | zero => simp [resample_shape] at h
  | succ n ih =>
      rw [resample_shape] at h
      split at h
      · exact ih h
      · rename_i hlt
        cases h
        exact le_of_not_lt hlt

theorem fuzzy_weibull_iter_length (T : ℝ) (D : ℕ) (sh sc : ℝ) (r t : ℕ) (p c : ℝ) :
    (fuzzy_weibull_iter T D sh sc r t p c).length = r + 1 := by
  induction r generalizing t p c with
  | zero => simp [fuzzy_weibull_iter]
  | succ n ih => simp [fuzzy_weibull_iter, ih]

theorem fuzzy_weibull_iter_sum (T : ℝ) (D : ℕ) (sh sc : ℝ) (r t : ℕ) (p c : ℝ) :
    (fuzzy_weibull_iter T D sh sc r t p c).sum = T - c := by
  induction r generalizing t p c with
  | zero => simp [fuzzy_weibull_iter]
  | succ n ih =>
      simp only [fuzzy_weibull_iter, List.sum_cons, ih]
      ring

/-- Every entry of the allocation except the last one is an integer
    (it is produced by `floor`). -/
theorem fuzzy_weibull_iter_dropLast_int (T : ℝ) (D : ℕ) (sh sc : ℝ) (r t : ℕ) (p c : ℝ) :
    ∀ x ∈ (fuzzy_weibull_iter T D sh sc r t p c).dropLast, ∃ n : ℤ, x = (n : ℝ) := by
  induction r generalizing t p c with
  | zero => simp [fuzzy_weibull_iter]
  | succ n ih =>
      intro x hx
      rw [fuzzy_weibull_iter] at hx
      rw [List.dropLast_cons_of_ne_nil] at hx
      · rcases List.mem_cons.mp hx with h | h
        · exact ⟨_, h⟩
        · exact ih _ _ _ x h
      · have := fuzzy_weibull_iter_length T D sh sc n (t + 1)
          (weibull_estimate (((t : ℝ) + 1) / (D : ℝ)) sh sc)
          (c + ((⌊(weibull_estimate (((t : ℝ) + 1) / (D : ℝ)) sh sc - p) * T⌋ : ℤ) : ℝ))
        intro hnil
        rw [hnil] at this
        simp at this

theorem weibull_estimate_of_neg {f shape scale : ℝ} (h : f < 0) :
    weibull_estimate f shape scale = 0 := by
  rw [weibull_estimate, if_pos h]

theorem weibull_estimate_of_one_le {f shape scale : ℝ} (h : 1 ≤ f) :
    weibull_estimate f shape scale = 1 := by
  rw [weibull_estimate, if_neg (not_lt.mpr (le_trans zero_le_one h)), if_pos h]

theorem weibull_estimate_of_mid {f shape scale : ℝ} (h0 : ¬ f < 0) (h1 : ¬ 1 ≤ f) :
    weibull_estimate f shape scale =
      (1 - Real.exp (-((f / scale) ^ shape))) / (1 - Real.exp (-((1 / scale) ^ shape))) := by
  rw [weibull_estimate, if_neg h0, if_neg h1]

/-- The denominator of the normalized Weibull CDF is positive. -/
theorem weibull_denom_pos {shape scale : ℝ} (hsc : 0 < scale) :
    0 < 1 - Real.exp (-((1 / scale) ^ shape)) := by
  have hpos : 0 < (1 / scale) ^ shape := Real.rpow_pos_of_pos (by positivity) shape
  have : Real.exp (-((1 / scale) ^ shape)) < 1 := Real.exp_lt_one_iff.mpr (by linarith)
  linarith

theorem weibull_estimate_nonneg {f shape scale : ℝ} (hsc : 0 < scale) :
    0 ≤ weibull_estimate f shape scale := by
  by_cases h0 : f < 0
  · rw [weibull_estimate_of_neg h0]
  by_cases h1 : (1 : ℝ) ≤ f
  · rw [weibull_estimate_of_one_le h1]; exact zero_le_one
  rw [weibull_estimate_of_mid h0 h1]
  apply div_nonneg _ (weibull_denom_pos hsc).le
  have hb : 0 ≤ f / scale := div_nonneg (not_lt.mp h0) hsc.le
  have : Real.exp (-((f / scale) ^ shape)) ≤ 1 :=
    Real.exp_le_one_iff.mpr (neg_nonpos.mpr (Real.rpow_nonneg hb shape))
  linarith

theorem weibull_estimate_le_one {f shape scale : ℝ} (hsh : 0 < shape) (hsc : 0 < scale) :
    weibull_estimate f shape scale ≤ 1 := by
  by_cases h0 : f < 0
  · rw [weibull_estimate_of_neg h0]; exact zero_le_one
  by_cases h1 : (1 : ℝ) ≤ f
  · rw [weibull_estimate_of_one_le h1]
  rw [weibull_estimate_of_mid h0 h1]
  rw [div_le_one (weibull_denom_pos hsc)]
  have hb : 0 ≤ f / scale := div_nonneg (not_lt.mp h0) hsc.le
  have hle : f / scale ≤ 1 / scale :=
    (div_le_div_iff_of_pos_right hsc).mpr (not_le.mp h1).le
  have hrle : (f / scale) ^ shape ≤ (1 / scale) ^ shape :=
    Real.rpow_le_rpow hb hle hsh.le
  have := Real.exp_le_exp.mpr (neg_le_neg hrle)
  linarith

theorem weibull_estimate_mono {f₁ f₂ shape scale : ℝ} (hsh : 0 < shape) (hsc : 0 < scale)
    (h : f₁ ≤ f₂) :
    weibull_estimate f₁ shape scale ≤ weibull_estimate f₂ shape scale := by
  by_cases ha : f₁ < 0
  · rw [weibull_estimate_of_neg ha]; exact weibull_estimate_nonneg hsc
  by_cases hb : (1 : ℝ) ≤ f₁
  · rw [weibull_estimate_of_one_le hb, weibull_estimate_of_one_le (le_trans hb h)]
  have hb2 : ¬ f₂ < 0 := fun hc => ha (lt_of_le_of_lt h hc)
  by_cases hc : (1 : ℝ) ≤ f₂
  · rw [weibull_estimate_of_one_le hc]; exact weibull_estimate_le_one hsh hsc
  rw [weibull_estimate_of_mid ha hb, weibull_estimate_of_mid hb2 hc]
  apply (div_le_div_iff_of_pos_right (weibull_denom_pos hsc)).mpr
  have hfb : 0 ≤ f₁ / scale := div_nonneg (not_lt.mp ha) hsc.le
  have hle : f₁ / scale ≤ f₂ / scale := (div_le_div_iff_of_pos_right hsc).mpr h
  have hrle : (f₁ / scale) ^ shape ≤ (f₂ / scale) ^ shape :=
    Real.rpow_le_rpow hfb hle hsh.le
  have := Real.exp_le_exp.mpr (neg_le_neg hrle)
  linarith

/-- Non-negativity invariant for the allocation loop: if the previous CDF sample
    is at most the next one, at most `1`, and the cumulative cost is at most
    `prev * T`, then all remaining entries are non-negative. -/
theorem fuzzy_weibull_iter_nonneg {T sh sc : ℝ} {D : ℕ} (hT : 0 ≤ T) (hsh : 0 < sh)
    (hsc : 0 < sc) (hD : 0 < D) :
    ∀ (r t : ℕ) (p c : ℝ), p ≤ 1 → c ≤ p * T →
      p ≤ weibull_estimate (((t : ℝ) + 1) / (D : ℝ)) sh sc →
      ∀ x ∈ fuzzy_weibull_iter T D sh sc r t p c, 0 ≤ x := by
  intro r
  induction r with
  | zero =>
      intro t p c hp1 hc hpF x hx
      simp only [fuzzy_weibull_iter, List.mem_singleton] at hx
      subst hx
      nlinarith
  | succ n ih =>
      intro t p c hp1 hc hpF x hx
      rw [fuzzy_weibull_iter] at hx
      set s := weibull_estimate (((t : ℝ) + 1) / (D : ℝ)) sh sc with hs
      simp only [List.mem_cons] at hx
      rcases hx with h | h
      · subst h
        have hsp : 0 ≤ (s - p) * T := mul_nonneg (by linarith) hT
        exact_mod_cast Int.floor_nonneg.mpr hsp
      · refine ih (t + 1) s (c + ((⌊(s - p) * T⌋ : ℤ) : ℝ)) ?_ ?_ ?_ x h
        · exact weibull_estimate_le_one hsh hsc
        · have h1 : ((⌊(s - p) * T⌋ : ℤ) : ℝ) ≤ (s - p) * T := Int.floor_le _
          nlinarith
        · rw [hs]
          apply weibull_estimate_mono hsh hsc
          have hDpos : (0 : ℝ) < (D : ℝ) := by exact_mod_cast hD
          apply (div_le_div_iff_of_pos_right hDpos).mpr
          push_cast
          linarith

/-- Contract of the temporal allocator (spec §4.2): a completed call of
    `fuzzy_weibull_cost_distribution` on a total `T ≥ 0` and duration `D ≥ 1`
    returns `D` non-negative entries summing exactly to `T`. -/
theorem fuzzy_weibull_spec {shape_draws : ℕ → ℝ} {scale_draw : ℝ} {fuel : ℕ} {T : ℝ}
    {D : ℕ} {out : List ℝ} (hT : 0 ≤ T) (hD : 1 ≤ D)
    (h : fuzzy_weibull_cost_distribution shape_draws scale_draw fuel T D = some out) :
    out.length = D ∧ out.sum = T ∧ ∀ x ∈ out, 0 ≤ x := by
  rcases Option.map_eq_some'.mp h with ⟨sh, hsome, rfl⟩
  have hsh : (0.01 : ℝ) ≤ sh := resample_shape_ge hsome
  have hshpos : 0 < sh := by norm_num at hsh ⊢; linarith
  have hscpos : 0 < max scale_draw 0.1 := lt_of_lt_of_le (by norm_num) (le_max_right _ _)
  refine ⟨?_, ?_, ?_⟩
  · rw [fuzzy_weibull_iter_length]; omega
  · rw [fuzzy_weibull_iter_sum]; ring
  · exact fuzzy_weibull_iter_nonneg hT hshpos hscpos (by omega) (D - 1) 0 0 0
      zero_le_one (by simp)
      (by simpa using @weibull_estimate_nonneg _ sh _ hscpos)

/-! ### Rounding lemmas -/

theorem npRound_intCast (n : ℤ) : npRound (n : ℝ) = n := by
  unfold npRound
  rw [Int.floor_intCast]
  rw [if_neg (by simp), round_intCast]

theorem abs_npRound_sub (x : ℝ) : |((npRound x : ℤ) : ℝ) - x| ≤ 1 / 2 := by
  unfold npRound
  split
  · rename_i hhalf
    split
    · rw [abs_sub_comm, abs_of_nonneg (by linarith [Int.floor_le x])]
      linarith
    · have hfl : ((⌊x⌋ : ℤ) : ℝ) = x - 1 / 2 := by linarith
      push_cast
      rw [hfl]
      rw [show x - 1 / 2 + 1 - x = 1 / 2 by ring]
      rw [abs_of_nonneg (by norm_num)]
  · rw [abs_sub_comm]
    exact abs_sub_round x

/-! ### Data model (src/project.py, src/synergy.py, src/instance_parameters.py) -/

/-- A project in the project-based PPSSP model (src/project.py lines 10-25).
    `value` holds integers because the generator applies `value.round()`
    before storing it (src/project.py line 128); relation lists hold the
    1-based project ids appended by the constraint passes. -/
structure Project where
  id : ℤ
  project_name : String
  cost : List ℝ
  value : List ℤ
  duration : ℕ
  total_cost : ℤ
  prerequisite_list : List ℤ
  successor_list : List ℤ
  exclusion_list : List ℤ

instance : Inhabited Project :=
  ⟨{ id := 0, project_name := "", cost := [], value := [], duration := 0, total_cost := 0,
     prerequisite_list := [], successor_list := [], exclusion_list := [] }⟩

/-- A synergy relationship (src/synergy.py): the numpy array of drawn project
    indices (stored as-is, 0-based) together with the bonus value. -/
structure Synergy where
  project_ids : List ℕ
  value : ℤ
deriving DecidableEq

/-- The `InstanceParameters` record (src/instance_parameters.py).  `factor` is
    the `kwargs["factor"]` option consumed by `random_cost_dur_value`
    (default 2); `max_proj_length` models the attribute added dynamically by
    `generate_instance` (its value before that call is arbitrary). -/
structure InstanceParameters where
  num_projects : ℕ
  planning_window : ℕ
  base_budget : ℚ
  yearly_budget_increase : ℚ
  initiation_max_proportion : ℚ := 1/4
  ongoing_max_proportion : ℚ := 3/4
  prerequisite_tuples : Option (List (ℕ × ℚ)) := none
  exclusion_tuples : Option (List (ℕ × ℚ)) := none
  synergy_tuples : Option (List (ℕ × ℚ)) := none
  discount_rate : ℚ := 0
  factor : ℝ := 2
  max_proj_length : ℕ := 0

/-- The random oracle: one component per numpy sampling routine used by a
    generation run, indexed by call counters.  The process-wide numpy
    generator, once seeded, determines all of these streams. -/
structure Draws where
  /-- rows of `mvlnorm_generate_costdur` (src/datagen.py lines 7-32):
      `(duration, total_cost)` for project `i`. -/
  costDur : ℕ → ℤ × ℤ
  /-- `np.random.normal(shape, std_shape)` draws inside the `k`-th call of
      `fuzzy_weibull_cost_distribution` (attempt-indexed). -/
  shapeDraws : ℕ → ℕ → ℝ
  /-- `np.random.normal(scale, std_scale)` draw inside the `k`-th call of
      `fuzzy_weibull_cost_distribution`. -/
  scaleDraw : ℕ → ℝ
  /-- `np.random.random()` in `random_cost_dur_value` for project `i`. -/
  valueU : ℕ → ℝ
  /-- `value_dist.rvs` draws in `random_cost_dur_value` for project `i`. -/
  valueDistDraw : ℕ → ℕ → ℝ
  /-- `np.random.choice(indices, size=(num_groups, size), replace=False)` in
      `_generate_prerequisites_post`, per directive round. -/
  prereqGroups : ℕ → List (List ℕ)
  /-- same, in `_generate_exclusions_post`. -/
  exclGroups : ℕ → List (List ℕ)
  /-- `np.random.choice(indices, size=size, replace=False)` in the synergy
      rejection loop, per requested size and attempt counter. -/
  synGroup : ℕ → ℕ → List ℕ
  /-- `np.random.randint(low, high)` in `_generate_synergies_post`, per call
      counter. -/
  randint : ℤ → ℤ → ℕ → ℤ

/-! ### Value generation and per-project construction (src/project.py lines 119-168) -/

/-- `random_cost_dur_value` (src/project.py lines 155-168):
    `np.random.random() * total_cost * factor + sum(value_dist.rvs(duration - 1))`,
    with the random draws passed explicitly. -/
noncomputable def random_cost_dur_value (total_cost : ℝ) (duration : ℕ) (factor : ℝ)
    (u : ℝ) (dist_draws : ℕ → ℝ) : ℝ :=
  u * total_cost * factor + ((List.range (duration - 1)).map dist_draws).sum

/-- One iteration of the project-construction loop of `create_random_projects`
    (src/project.py lines 119-137).  `none` models the exceptions Python
    raises when the sampled duration is below 1 (`np.zeros(duration)` /
    `costs[duration - 1]`) and the non-termination of the shape resampling
    loop. -/
noncomputable def generate_project (R : Draws) (factor : ℝ) (fuel : ℕ) (i : ℕ) :
    Option Project :=
  let duration := (R.costDur i).1
  let total_cost := (R.costDur i).2
  if 1 ≤ duration then
    let dn := duration.toNat
    (fuzzy_weibull_cost_distribution (R.shapeDraws (2 * i)) (R.scaleDraw (2 * i)) fuel
        (total_cost : ℝ) dn).bind fun cost =>
      (fuzzy_weibull_cost_distribution (R.shapeDraws (2 * i + 1)) (R.scaleDraw (2 * i + 1))
          fuel
          (random_cost_dur_value (total_cost : ℝ) dn factor (R.valueU i) (R.valueDistDraw i))
          dn).map fun value =>
        { id := (i : ℤ) + 1
          project_name := "Project " ++ toString (i + 1)
          cost := cost
          value := value.map npRound
          duration := dn
          total_cost := total_cost
          prerequisite_list := []
          successor_list := []
          exclusion_list := [] }
  else none

/-- The total value of the generator's value rule for project `i`, as a
    function of the oracle (the quantity the spec calls `total_value`). -/
noncomputable def total_value_of (R : Draws) (factor : ℝ) (i : ℕ) : ℝ :=
  random_cost_dur_value (((R.costDur i).2 : ℤ) : ℝ) (R.costDur i).1.toNat factor
    (R.valueU i) (R.valueDistDraw i)

/-! ### Constraint generation (src/project.py lines 171-295) -/

/-- In-place mutation of `projects[i]`, as a pointwise function update. -/
def update_proj (ps : ℕ → Project) (i : ℕ) (f : Project → Project) : ℕ → Project :=
  fun j => if j = i then f (ps j) else ps j

/-- `num_groups = int(prop * num_projects / size)` (src/project.py lines 190,
    226, 264).  Python `int()` truncates toward zero; on the non-negative
    values arising here that agrees with `Int.floor` followed by `toNat`. -/
def num_groups (num_projects size : ℕ) (prop : ℚ) : ℕ :=
  (Int.floor (prop * num_projects / size)).toNat

/-- Inner loop of `_generate_exclusions_post` (src/project.py lines 237-241):
    for position `a` holding index `ind1`, append `ind2 + 1` to
    `projects[ind1].exclusion_list` for every other position `(b, ind2)` of the
    group. -/
def add_exclusion_inner (ind1 a : ℕ) : List (ℕ × ℕ) → (ℕ → Project) → (ℕ → Project)
  | [], ps => ps
  | (b, ind2) :: rest, ps =>
      let ps' := if a = b then ps
        else update_proj ps ind1 fun p =>
          { p with exclusion_list := p.exclusion_list ++ [(ind2 : ℤ) + 1] }
      add_exclusion_inner ind1 a rest ps'

/-- Outer loop of `_generate_exclusions_post` (src/project.py lines 234-241)
    over the enumerated group. -/
def add_exclusion_outer (ge : List (ℕ × ℕ)) : List (ℕ × ℕ) → (ℕ → Project) → (ℕ → Project)
  | [], ps => ps
  | (a, ind1) :: rest, ps => add_exclusion_outer ge rest (add_exclusion_inner ind1 a ge ps)

/-- Processing of one drawn exclusion group (src/project.py lines 233-241). -/
def add_exclusion_group (ps : ℕ → Project) (group : List ℕ) : ℕ → Project :=
  add_exclusion_outer group.enum group.enum ps

/-- The directive loop of `_generate_exclusions_post` (src/project.py lines
    225-241), with the drawn groups supplied by the oracle.  The pool
    bookkeeping (`indices = np.setdiff1d(indices, groups)`) constrains which
    draws numpy can produce and is captured by the well-formedness predicates
    below. -/
def generate_exclusions_rounds (R : Draws) (N : ℕ) :
    List (ℕ × ℚ) → ℕ → (ℕ → Project) → (ℕ → Project)
  | [], _, ps => ps
  | (size, prop) :: rest, r, ps =>
      let groups := (R.exclGroups r).take (num_groups N size prop)
      generate_exclusions_rounds R N rest (r + 1) (groups.foldl add_exclusion_group ps)

/-- `_generate_exclusions_post` (src/project.py lines 208-241). -/
def generate_exclusions_post (R : Draws) (N : ℕ) (ps : ℕ → Project)
    (tuples : List (ℕ × ℚ)) : ℕ → Project :=
  generate_exclusions_rounds R N tuples 0 ps

/-- `np.sort(group)` (src/project.py line 199), ascending. -/
def sorted_group (group : List ℕ) : List ℕ :=
  group.mergeSort (fun a b => decide (a ≤ b))

/-- Processing of one drawn prerequisite group (src/project.py lines 197-205):
    the first element of the sorted group is the prerequisite, every further
    element becomes a successor.  The empty-group case cannot arise for a
    numpy draw of size ≥ 1 (Python would raise on `sorted_group[0]`
    otherwise). -/
def add_prerequisite_group (ps : ℕ → Project) (group : List ℕ) : ℕ → Project :=
  match sorted_group group with
  | [] => ps
  | prereq :: successors =>
      successors.foldl (fun ps (successor : ℕ) =>
        update_proj
          (update_proj ps prereq fun p =>
            { p with successor_list := p.successor_list ++ [(successor : ℤ) + 1] })
          successor fun p =>
          { p with prerequisite_list := p.prerequisite_list ++ [(prereq : ℤ) + 1] }) ps

/-- The directive loop of `_generate_prerequisites_post` (src/project.py lines
    189-205). -/
def generate_prerequisites_rounds (R : Draws) (N : ℕ) :
    List (ℕ × ℚ) → ℕ → (ℕ → Project) → (ℕ → Project)
  | [], _, ps => ps
  | (size, prop) :: rest, r, ps =>
      let groups := (R.prereqGroups r).take (num_groups N size prop)
      generate_prerequisites_rounds R N rest (r + 1) (groups.foldl add_prerequisite_group ps)

/-- `_generate_prerequisites_post` (src/project.py lines 171-205). -/
def generate_prerequisites_post (R : Draws) (N : ℕ) (ps : ℕ → Project)
    (tuples : List (ℕ × ℚ)) : ℕ → Project :=
  generate_prerequisites_rounds R N tuples 0 ps

/-- The exclusion-consistency test of the synergy rejection loop
    (src/project.py lines 274-284): for every pair of positions `i < j` in the
    drawn group, test whether the raw index `group[j]` occurs in
    `projects[group[i]].exclusion_list`.  (Note that the source compares the
    0-based index against the 1-based ids stored in `exclusion_list`; the
    embedding reproduces this literally.) -/
def group_conflict (ps : ℕ → Project) : List ℕ → Bool
  | [] => false
  | p_index :: rest =>
      rest.any (fun p2_index => decide ((p2_index : ℤ) ∈ (ps p_index).exclusion_list)) ||
        group_conflict ps rest

/-- The `while repeat` rejection loop of `_generate_synergies_post`
    (src/project.py lines 268-284), with explicit fuel and the attempt counter
    `k` threaded through. -/
def draw_synergy_group (R : Draws) (ps : ℕ → Project) (size : ℕ) :
    ℕ → ℕ → Option (List ℕ × ℕ)
  | 0, _ => none
  | fuel + 1, k =>
      let group := R.synGroup size k
      if group_conflict ps group then draw_synergy_group R ps size fuel (k + 1)
      else some (group, k + 1)

/-- `total_group_value` (src/project.py lines 288-290): the sum over the group
    of `np.sum(projects[p_index].value)`. -/
def total_group_value (ps : ℕ → Project) (group : List ℕ) : ℤ :=
  (group.map fun p_index => ((ps p_index).value).sum).sum

/-- The `for i in range(num_groups)` loop of `_generate_synergies_post`
    (src/project.py lines 266-293).  `np.random.randint(1, total_group_value)`
    raises `ValueError` when `total_group_value ≤ 1` (low ≥ high), modelled as
    `none`.  `k` and `m` are the choice / randint call counters. -/
def generate_synergy_groups (R : Draws) (ps : ℕ → Project) (size fuel : ℕ) :
    ℕ → ℕ → ℕ → Option (List Synergy × ℕ × ℕ)
  | 0, k, m => some ([], k, m)
  | n + 1, k, m =>
      (draw_synergy_group R ps size fuel k).bind fun gk =>
        if total_group_value ps gk.1 ≤ 1 then none
        else
          (generate_synergy_groups R ps size fuel n gk.2 (m + 1)).map fun rest =>
            (⟨gk.1, R.randint 1 (total_group_value ps gk.1) m⟩ :: rest.1, rest.2)

/-- The directive loop of `_generate_synergies_post` (src/project.py lines
    263-293). -/
def generate_synergies_rounds (R : Draws) (ps : ℕ → Project) (N fuel : ℕ) :
    List (ℕ × ℚ) → ℕ → ℕ → Option (List Synergy)
  | [], _, _ => some []
  | (size, prop) :: rest, k, m =>
      (generate_synergy_groups R ps size fuel (num_groups N size prop) k m).bind fun out =>
        (generate_synergies_rounds R ps N fuel rest out.2.1 out.2.2).map fun syns =>
          out.1 ++ syns

/-- `_generate_synergies_post` (src/project.py lines 244-295). -/
def generate_synergies_post (R : Draws) (ps : ℕ → Project) (N fuel : ℕ)
    (tuples : List (ℕ × ℚ)) : Option (List Synergy) :=
  generate_synergies_rounds R ps N fuel tuples 0 0

/-! ### create_random_projects and generate_instance -/

/-- The project array as filled by the `for i in range(num_projects)` loop of
    `create_random_projects` (src/project.py lines 119-137); entries whose
    generation failed (or beyond `num_projects`) hold the default project, and
    a completed run guarantees the first `num_projects` entries are real. -/
noncomputable def base_projects (R : Draws) (factor : ℝ) (fuel : ℕ) : ℕ → Project :=
  fun i => (generate_project R factor fuel i).getD default

/-- The project array after the exclusion pass (src/project.py lines 140-141)
    and the prerequisite pass (lines 144-145), in that order. -/
noncomputable def projects_after_relations (R : Draws) (fuel : ℕ) (N : ℕ)
    (prerequisite_tuples exclusion_tuples : Option (List (ℕ × ℚ))) (factor : ℝ) :
    ℕ → Project :=
  let projects := base_projects R factor fuel
  let projects1 := match exclusion_tuples with
    | none => projects
    | some ts => generate_exclusions_post R N projects ts
  match prerequisite_tuples with
  | none => projects1
  | some ts => generate_prerequisites_post R N projects1 ts

/-- `create_random_projects` (src/project.py lines 92-152): build all projects
    (raising — `none` — if any single project generation fails), then run the
    exclusion, prerequisite and synergy passes in that order. -/
noncomputable def create_random_projects (R : Draws) (fuel : ℕ) (num_projects : ℕ)
    (prerequisite_tuples exclusion_tuples synergy_tuples : Option (List (ℕ × ℚ)))
    (factor : ℝ) : Option ((ℕ → Project) × List Synergy) :=
  if (List.range num_projects).all (fun i => (generate_project R factor fuel i).isSome) then
    let projects2 := projects_after_relations R fuel num_projects prerequisite_tuples
      exclusion_tuples factor
    match synergy_tuples with
    | none => some (projects2, [])
    | some ts =>
        (generate_synergies_post R projects2 num_projects fuel ts).map fun syns =>
          (projects2, syns)
  else none

/-- `create_random_projects_from_param` (src/project.py lines 75-89). -/
noncomputable def create_random_projects_from_param (R : Draws) (fuel : ℕ)
    (params : InstanceParameters) : Option ((ℕ → Project) × List Synergy) :=
  create_random_projects R fuel params.num_projects params.prerequisite_tuples
    params.exclusion_tuples params.synergy_tuples params.factor

/-- `np.random.seed(seed)` (src/project.py line 113) makes every later draw a
    function of the seed alone: `numpy_stream` maps each seed to the draw
    streams the seeded process-wide generator produces. -/
noncomputable def create_random_projects_seeded (numpy_stream : ℕ → Draws) (fuel : ℕ)
    (params : InstanceParameters) (seed : ℕ) : Option ((ℕ → Project) × List Synergy) :=
  create_random_projects_from_param (numpy_stream seed) fuel params

/-- `ProjectProblemInstance` (src/project_problem_instance.py lines 9-28). -/
structure ProjectProblemInstance where
  projects : ℕ → Project
  budget : List ℚ
  initiation_budget : List ℚ
  ongoing_budget : List ℚ
  synergies : List Synergy
  planning_window : ℕ
  identifier : String
  num_projects : ℕ
  budget_window : ℕ
  discount_rate : ℚ
  parameters : InstanceParameters

/-- The `max_length` loop of `generate_instance`
    (src/project_problem_instance.py lines 69-72). -/
def max_proj_length_of (ps : ℕ → Project) (N : ℕ) : ℕ :=
  ((List.range N).map fun i => (ps i).duration).foldl max 0

/-- `param.max_proj_length = max_length` (src/project_problem_instance.py
    line 74): the in-place mutation of the caller's parameter record,
    modelled as a record update. -/
def param_with_max (param : InstanceParameters) (rs : (ℕ → Project) × List Synergy) :
    InstanceParameters :=
  { param with max_proj_length := max_proj_length_of rs.1 param.num_projects }

/-- The linear budget schedule (src/project_problem_instance.py lines 78-82):
    `budget[y] = base_budget + y * yearly_budget_increase` over
    `planning_window + max_proj_length` periods. -/
def budget_of (param : InstanceParameters) : List ℚ :=
  (List.range (param.planning_window + param.max_proj_length)).map fun y : ℕ =>
    param.base_budget + (y : ℚ) * param.yearly_budget_increase

/-- The body of `generate_instance` after project generation
    (src/project_problem_instance.py lines 68-90). -/
def instance_of (param : InstanceParameters) (identifier : String)
    (rs : (ℕ → Project) × List Synergy) :
    ProjectProblemInstance × InstanceParameters :=
  ({ projects := rs.1
     budget := budget_of (param_with_max param rs)
     initiation_budget :=
       (budget_of (param_with_max param rs)).map (· * param.initiation_max_proportion)
     ongoing_budget :=
       (budget_of (param_with_max param rs)).map (· * param.ongoing_max_proportion)
     synergies := rs.2
     planning_window := param.planning_window
     identifier := identifier
     num_projects := param.num_projects
     budget_window := (budget_of (param_with_max param rs)).length
     discount_rate := param.discount_rate
     parameters := param_with_max param rs }, param_with_max param rs)

/-- `generate_instance` (src/project_problem_instance.py lines 56-90).  The
    Python function mutates `param` in place (adding `max_proj_length`); the
    embedding returns the updated parameter record alongside the instance. -/
noncomputable def generate_instance (R : Draws) (fuel : ℕ) (param : InstanceParameters)
    (identifier : String := "Instance 1") :
    Option (ProjectProblemInstance × InstanceParameters) :=
  (create_random_projects_from_param R fuel param).map (instance_of param identifier)

/-! ### Characterization of the exclusion pass -/

theorem update_proj_apply (ps : ℕ → Project) (i : ℕ) (f : Project → Project) (j : ℕ) :
    update_proj ps i f j = if j = i then f (ps i) else ps j := by
  unfold update_proj
  by_cases h : j = i <;> simp [h]

/-- The ids appended to `projects[ind1].exclusion_list` by the inner loop of
    `_generate_exclusions_post` for the position `a`. -/
def inner_additions (a : ℕ) (ge : List (ℕ × ℕ)) : List ℤ :=
  ge.filterMap fun bi => if a = bi.1 then none else some ((bi.2 : ℤ) + 1)

theorem add_exclusion_inner_apply (ind1 a : ℕ) (ge : List (ℕ × ℕ)) (ps : ℕ → Project)
    (j : ℕ) :
    add_exclusion_inner ind1 a ge ps j =
      if j = ind1 then
        { ps j with exclusion_list := (ps j).exclusion_list ++ inner_additions a ge }
      else ps j := by
  induction ge generalizing ps with
  | nil =>
      simp only [add_exclusion_inner, inner_additions, List.filterMap_nil, List.append_nil]
      split <;> rfl
  | cons bi rest ih =>
      obtain ⟨b, ind2⟩ := bi
      rw [add_exclusion_inner]
      by_cases hab : a = b
      · rw [if_pos hab, ih]
        simp [inner_additions, hab]
      · rw [if_neg hab, ih]
        by_cases hj : j = ind1
        · subst hj
          simp [update_proj, inner_additions, hab, List.append_assoc]
        · simp [update_proj, hj, inner_additions, hab]

/-- The ids appended to `projects[j].exclusion_list` by the outer loop over
    positions `outer` (with the full enumerated group `ge`). -/
def outer_additions (ge : List (ℕ × ℕ)) (outer : List (ℕ × ℕ)) (j : ℕ) : List ℤ :=
  (outer.map fun ai => if j = ai.2 then inner_additions ai.1 ge else []).flatten

theorem add_exclusion_outer_apply (ge outer : List (ℕ × ℕ)) (ps : ℕ → Project) (j : ℕ) :
    add_exclusion_outer ge outer ps j =
      { ps j with exclusion_list := (ps j).exclusion_list ++ outer_additions ge outer j } := by
  induction outer generalizing ps with
  | nil =>
      simp only [add_exclusion_outer, outer_additions, List.map_nil, List.flatten_nil,
        List.append_nil]
  | cons ai rest ih =>
      obtain ⟨a, ind1⟩ := ai
      rw [add_exclusion_outer, ih, add_exclusion_inner_apply]
      by_cases hj : j = ind1
      · simp [outer_additions, hj, List.append_assoc]
      · simp [outer_additions, hj]

/-- The ids appended to `projects[j].exclusion_list` when one drawn group is
    processed. -/
def group_exclusion_additions (group : List ℕ) (j : ℕ) : List ℤ :=
  outer_additions group.enum group.enum j

theorem add_exclusion_group_apply (ps : ℕ → Project) (group : List ℕ) (j : ℕ) :
    add_exclusion_group ps group j =
      { ps j with exclusion_list :=
          (ps j).exclusion_list ++ group_exclusion_additions group j } := by
  unfold add_exclusion_group group_exclusion_additions
  exact add_exclusion_outer_apply _ _ _ _

theorem mem_group_exclusion_additions {group : List ℕ} {j : ℕ} {x : ℤ} :
    x ∈ group_exclusion_additions group j ↔
      ∃ a b ind2 : ℕ, a ≠ b ∧ group[a]? = some j ∧ group[b]? = some ind2 ∧
        x = (ind2 : ℤ) + 1 := by
  unfold group_exclusion_additions outer_additions inner_additions
  simp only [List.mem_flatten, List.mem_map]
  constructor
  · rintro ⟨l, ⟨⟨a, ind1⟩, hmem, rfl⟩, hx⟩
    by_cases hj : j = ind1
    · rw [if_pos hj] at hx
      rcases List.mem_filterMap.mp hx with ⟨⟨b, ind2⟩, hb, hbx⟩
      by_cases hab : a = b
      · rw [if_pos hab] at hbx; cases hbx
      · rw [if_neg hab] at hbx
        refine ⟨a, b, ind2, hab, ?_, ?_, ?_⟩
        · have h1 := List.mem_enum_iff_getElem?.mp hmem
          rw [hj]
          exact h1
        · exact List.mem_enum_iff_getElem?.mp hb
        · exact (Option.some.injEq _ _).mp hbx |>.symm
    · rw [if_neg hj] at hx
      cases hx
  · rintro ⟨a, b, ind2, hab, ha, hb, rfl⟩
    refine ⟨inner_additions a group.enum, ⟨⟨a, j⟩, ?_, ?_⟩, ?_⟩
    · exact List.mem_enum_iff_getElem?.mpr ha
    · simp [inner_additions]
    · unfold inner_additions
      apply List.mem_filterMap.mpr
      refine ⟨⟨b, ind2⟩, List.mem_enum_iff_getElem?.mpr hb, ?_⟩
      rw [if_neg hab]

/-! ### Pass-level closed forms for the exclusion pass -/

def groups_exclusion_additions (gs : List (List ℕ)) (j : ℕ) : List ℤ :=
  (gs.map fun g => group_exclusion_additions g j).flatten

theorem foldl_add_exclusion_group_apply (gs : List (List ℕ)) (ps : ℕ → Project) (j : ℕ) :
    (gs.foldl add_exclusion_group ps) j =
      { ps j with exclusion_list :=
          (ps j).exclusion_list ++ groups_exclusion_additions gs j } := by
  induction gs generalizing ps with
  | nil => simp [groups_exclusion_additions]
  | cons g rest ih =>
      rw [List.foldl_cons, ih, add_exclusion_group_apply]
      simp [groups_exclusion_additions, List.append_assoc]

/-- The sequence of exclusion groups actually processed by the directive loop
    (first `num_groups` drawn groups of each round, rounds in order). -/
def excl_used_groups (R : Draws) (N : ℕ) : List (ℕ × ℚ) → ℕ → List (List ℕ)
  | [], _ => []
  | (size, prop) :: rest, r =>
      (R.exclGroups r).take (num_groups N size prop) ++ excl_used_groups R N rest (r + 1)

theorem generate_exclusions_rounds_eq_foldl (R : Draws) (N : ℕ) (ts : List (ℕ × ℚ))
    (r : ℕ) (ps : ℕ → Project) :
    generate_exclusions_rounds R N ts r ps =
      (excl_used_groups R N ts r).foldl add_exclusion_group ps := by
  induction ts generalizing r ps with
  | nil => rfl
  | cons t rest ih =>
      obtain ⟨size, prop⟩ := t
      rw [generate_exclusions_rounds, ih, excl_used_groups, List.foldl_append]

theorem generate_exclusions_post_apply (R : Draws) (N : ℕ) (ps : ℕ → Project)
    (ts : List (ℕ × ℚ)) (j : ℕ) :
    generate_exclusions_post R N ps ts j =
      { ps j with exclusion_list := (ps j).exclusion_list ++
          groups_exclusion_additions (excl_used_groups R N ts 0) j } := by
  rw [generate_exclusions_post, generate_exclusions_rounds_eq_foldl,
    foldl_add_exclusion_group_apply]

theorem mem_groups_exclusion_additions {gs : List (List ℕ)} {j : ℕ} {x : ℤ} :
    x ∈ groups_exclusion_additions gs j ↔
      ∃ g ∈ gs, x ∈ group_exclusion_additions g j := by
  unfold groups_exclusion_additions
  simp only [List.mem_flatten, List.mem_map]
  constructor
  · rintro ⟨l, ⟨g, hg, rfl⟩, hx⟩
    exact ⟨g, hg, hx⟩
  · rintro ⟨g, hg, hx⟩
    exact ⟨_, ⟨g, hg, rfl⟩, hx⟩

/-- One group's exclusion additions are symmetric in the pair of projects. -/
theorem group_exclusion_additions_symm {group : List ℕ} {i j : ℕ} :
    ((j : ℤ) + 1) ∈ group_exclusion_additions group i ↔
      ((i : ℤ) + 1) ∈ group_exclusion_additions group j := by
  constructor
  · intro h
    rcases mem_group_exclusion_additions.mp h with ⟨a, b, ind2, hab, ha, hb, hx⟩
    have hind : ind2 = j := by exact_mod_cast add_right_cancel hx.symm
    subst hind
    exact mem_group_exclusion_additions.mpr ⟨b, a, i, hab.symm, hb, ha, rfl⟩
  · intro h
    rcases mem_group_exclusion_additions.mp h with ⟨a, b, ind2, hab, ha, hb, hx⟩
    have hind : ind2 = i := by exact_mod_cast add_right_cancel hx.symm
    subst hind
    exact mem_group_exclusion_additions.mpr ⟨b, a, j, hab.symm, hb, ha, rfl⟩

/-- A `Nodup` group never adds a project's own id to its exclusion list. -/
theorem group_exclusion_additions_no_self {group : List ℕ} {i : ℕ}
    (hnd : group.Nodup) : ((i : ℤ) + 1) ∉ group_exclusion_additions group i := by
  intro h
  rcases mem_group_exclusion_additions.mp h with ⟨a, b, ind2, hab, ha, hb, hx⟩
  have hind : ind2 = i := by exact_mod_cast add_right_cancel hx.symm
  subst hind
  exact hab (List.getElem?_inj
    (by rcases List.getElem?_eq_some_iff.mp ha with ⟨hlt, _⟩; exact hlt) hnd
    (ha.trans hb.symm))

/-! ### Characterization of the prerequisite pass -/

/-- Ids appended to `projects[j].successor_list` by processing one drawn
    prerequisite group. -/
def group_succ_additions (group : List ℕ) (j : ℕ) : List ℤ :=
  match sorted_group group with
  | [] => []
  | prereq :: successors =>
      if j = prereq then successors.map (fun s : ℕ => (s : ℤ) + 1) else []

/-- Ids appended to `projects[j].prerequisite_list` by processing one drawn
    prerequisite group. -/
def group_prereq_additions (group : List ℕ) (j : ℕ) : List ℤ :=
  match sorted_group group with
  | [] => []
  | prereq :: successors =>
      successors.filterMap (fun s => if s = j then some ((prereq : ℤ) + 1) else none)

theorem prereq_step_apply (ps : ℕ → Project) (prereq s j : ℕ) :
    update_proj
      (update_proj ps prereq fun p =>
        { p with successor_list := p.successor_list ++ [(s : ℤ) + 1] })
      s (fun p => { p with prerequisite_list := p.prerequisite_list ++ [(prereq : ℤ) + 1] })
      j =
    { ps j with
      successor_list := (ps j).successor_list ++ (if j = prereq then [(s : ℤ) + 1] else []),
      prerequisite_list := (ps j).prerequisite_list ++
        (if j = s then [(prereq : ℤ) + 1] else []) } := by
  unfold update_proj
  by_cases hjs : j = s
  · subst hjs
    by_cases hjp : j = prereq
    · subst hjp
      simp
    · simp [hjp]
  · by_cases hjp : j = prereq
    · subst hjp
      simp [hjs]
    · simp [hjs, hjp]

theorem prereq_fold_apply (prereq : ℕ) (succs : List ℕ) (ps : ℕ → Project) (j : ℕ) :
    (succs.foldl (fun ps (successor : ℕ) =>
        update_proj
          (update_proj ps prereq fun p =>
            { p with successor_list := p.successor_list ++ [(successor : ℤ) + 1] })
          successor fun p =>
          { p with prerequisite_list := p.prerequisite_list ++ [(prereq : ℤ) + 1] }) ps) j =
      { ps j with
        successor_list := (ps j).successor_list ++
          (if j = prereq then succs.map (fun s : ℕ => (s : ℤ) + 1) else []),
        prerequisite_list := (ps j).prerequisite_list ++
          succs.filterMap (fun s => if s = j then some ((prereq : ℤ) + 1) else none) } := by
  induction succs generalizing ps with
  | nil =>
      simp only [List.foldl_nil, List.map_nil, List.filterMap_nil, List.append_nil]
      split <;> simp
  | cons s rest ih =>
      simp only [List.foldl_cons]
      rw [ih, prereq_step_apply]
      by_cases hjp : j = prereq <;> by_cases hjs : j = s
      · subst hjp; subst hjs
        simp [List.filterMap_cons, List.append_assoc]
      · subst hjp
        have h2 : ¬ s = j := fun h => hjs h.symm
        simp [List.filterMap_cons, hjs, h2, List.append_assoc]
      · subst hjs
        simp [List.filterMap_cons, hjp, List.append_assoc]
      · have h2 : ¬ s = j := fun h => hjs h.symm
        simp [List.filterMap_cons, hjp, hjs, h2, List.append_assoc]

theorem add_prerequisite_group_apply (ps : ℕ → Project) (group : List ℕ) (j : ℕ) :
    add_prerequisite_group ps group j =
      { ps j with
        successor_list := (ps j).successor_list ++ group_succ_additions group j,
        prerequisite_list := (ps j).prerequisite_list ++ group_prereq_additions group j } := by
  unfold add_prerequisite_group group_succ_additions group_prereq_additions
  cases hs : sorted_group group with
  | nil => simp
  | cons prereq succs => exact prereq_fold_apply prereq succs ps j

def groups_succ_additions (gs : List (List ℕ)) (j : ℕ) : List ℤ :=
  (gs.map fun g => group_succ_additions g j).flatten

def groups_prereq_additions (gs : List (List ℕ)) (j : ℕ) : List ℤ :=
  (gs.map fun g => group_prereq_additions g j).flatten

theorem foldl_add_prerequisite_group_apply (gs : List (List ℕ)) (ps : ℕ → Project) (j : ℕ) :
    (gs.foldl add_prerequisite_group ps) j =
      { ps j with
        successor_list := (ps j).successor_list ++ groups_succ_additions gs j,
        prerequisite_list := (ps j).prerequisite_list ++ groups_prereq_additions gs j } := by
  induction gs generalizing ps with
  | nil => simp [groups_succ_additions, groups_prereq_additions]
  | cons g rest ih =>
      rw [List.foldl_cons, ih, add_prerequisite_group_apply]
      simp [groups_succ_additions, groups_prereq_additions, List.append_assoc]

/-- The sequence of prerequisite groups actually processed by the directive
    loop. -/
def prereq_used_groups (R : Draws) (N : ℕ) : List (ℕ × ℚ) → ℕ → List (List ℕ)
  | [], _ => []
  | (size, prop) :: rest, r =>
      (R.prereqGroups r).take (num_groups N size prop) ++ prereq_used_groups R N rest (r + 1)

theorem generate_prerequisites_rounds_eq_foldl (R : Draws) (N : ℕ) (ts : List (ℕ × ℚ))
    (r : ℕ) (ps : ℕ → Project) :
    generate_prerequisites_rounds R N ts r ps =
      (prereq_used_groups R N ts r).foldl add_prerequisite_group ps := by
  induction ts generalizing r ps with
  | nil => rfl
  | cons t rest ih =>
      obtain ⟨size, prop⟩ := t
      rw [generate_prerequisites_rounds, ih, prereq_used_groups, List.foldl_append]

theorem generate_prerequisites_post_apply (R : Draws) (N : ℕ) (ps : ℕ → Project)
    (ts : List (ℕ × ℚ)) (j : ℕ) :
    generate_prerequisites_post R N ps ts j =
      { ps j with
        successor_list := (ps j).successor_list ++
          groups_succ_additions (prereq_used_groups R N ts 0) j,
        prerequisite_list := (ps j).prerequisite_list ++
          groups_prereq_additions (prereq_used_groups R N ts 0) j } := by
  rw [generate_prerequisites_post, generate_prerequisites_rounds_eq_foldl,
    foldl_add_prerequisite_group_apply]

/-! ### Membership lemmas for the prerequisite additions -/

theorem group_succ_additions_of_nil {g : List ℕ} (hs : sorted_group g = []) (j : ℕ) :
    group_succ_additions g j = [] := by
  unfold group_succ_additions
  rw [hs]

theorem group_succ_additions_of {g : List ℕ} {p : ℕ} {succs : List ℕ}
    (hs : sorted_group g = p :: succs) (j : ℕ) :
    group_succ_additions g j =
      if j = p then succs.map (fun s : ℕ => (s : ℤ) + 1) else [] := by
  unfold group_succ_additions
  rw [hs]

theorem group_prereq_additions_of_nil {g : List ℕ} (hs : sorted_group g = []) (j : ℕ) :
    group_prereq_additions g j = [] := by
  unfold group_prereq_additions
  rw [hs]

theorem group_prereq_additions_of {g : List ℕ} {p : ℕ} {succs : List ℕ}
    (hs : sorted_group g = p :: succs) (j : ℕ) :
    group_prereq_additions g j =
      succs.filterMap (fun s => if s = j then some ((p : ℤ) + 1) else none) := by
  unfold group_prereq_additions
  rw [hs]

theorem mem_group_succ_additions {g : List ℕ} {i j : ℕ} :
    ((j : ℤ) + 1) ∈ group_succ_additions g i ↔
      ∃ p succs, sorted_group g = p :: succs ∧ i = p ∧ j ∈ succs := by
  cases hs : sorted_group g with
  | nil =>
      rw [group_succ_additions_of_nil hs]
      simp
  | cons p succs =>
      rw [group_succ_additions_of hs]
      constructor
      · intro h
        by_cases hip : i = p
        · rw [if_pos hip] at h
          rcases List.mem_map.mp h with ⟨s, hsmem, hcast⟩
          have hsj : s = j := by exact_mod_cast add_right_cancel hcast
          exact ⟨p, succs, rfl, hip, hsj ▸ hsmem⟩
        · rw [if_neg hip] at h
          cases h
      · rintro ⟨p', succs', heq, rfl, hj⟩
        injection heq with h1 h2
        subst h1
        subst h2
        rw [if_pos rfl]
        exact List.mem_map.mpr ⟨j, hj, rfl⟩

theorem mem_group_prereq_additions {g : List ℕ} {i j : ℕ} :
    ((i : ℤ) + 1) ∈ group_prereq_additions g j ↔
      ∃ p succs, sorted_group g = p :: succs ∧ i = p ∧ j ∈ succs := by
  cases hs : sorted_group g with
  | nil =>
      rw [group_prereq_additions_of_nil hs]
      simp
  | cons p succs =>
      rw [group_prereq_additions_of hs]
      constructor
      · intro h
        rcases List.mem_filterMap.mp h with ⟨s, hsmem, hsome⟩
        by_cases hsj : s = j
        · rw [if_pos hsj] at hsome
          injection hsome with hcast
          have hip : p = i := by exact_mod_cast add_right_cancel hcast
          exact ⟨p, succs, rfl, hip.symm, hsj ▸ hsmem⟩
        · rw [if_neg hsj] at hsome
          cases hsome
      · rintro ⟨p', succs', heq, rfl, hj⟩
        injection heq with h1 h2
        subst h1
        subst h2
        exact List.mem_filterMap.mpr ⟨j, hj, by rw [if_pos rfl]⟩

/-- One group's successor / prerequisite additions are mutual inverses. -/
theorem group_prereq_inverse {g : List ℕ} {i j : ℕ} :
    ((j : ℤ) + 1) ∈ group_succ_additions g i ↔
      ((i : ℤ) + 1) ∈ group_prereq_additions g j := by
  rw [mem_group_succ_additions, mem_group_prereq_additions]

/-! ### Facts about `sorted_group` -/

theorem sorted_group_perm (g : List ℕ) : (sorted_group g).Perm g :=
  List.mergeSort_perm g _

theorem sorted_group_nodup {g : List ℕ} (h : g.Nodup) : (sorted_group g).Nodup :=
  ((sorted_group_perm g).nodup_iff).mpr h

theorem sorted_group_sorted (g : List ℕ) : (sorted_group g).Pairwise (· ≤ ·) := by
  have h := @List.sorted_mergeSort ℕ (fun a b : ℕ => decide (a ≤ b))
    (fun a b c hab hbc => by
      simp only [decide_eq_true_eq] at hab hbc ⊢
      omega)
    (fun a b => by
      simp only [Bool.or_eq_true, decide_eq_true_eq]
      omega) g
  exact h.imp (by simp only [decide_eq_true_eq, imp_self, implies_true])

/-- The head of the sorted group is its least member. -/
theorem sorted_group_head_min {g : List ℕ} {p : ℕ} {succs : List ℕ}
    (h : sorted_group g = p :: succs) : ∀ x ∈ g, p ≤ x := by
  intro x hx
  have hx' : x ∈ p :: succs := h ▸ ((sorted_group_perm g).mem_iff).mpr hx
  rcases List.mem_cons.mp hx' with rfl | hx''
  · exact le_refl x
  · have := sorted_group_sorted g
    rw [h] at this
    exact (List.pairwise_cons.mp this).1 x hx''

theorem sorted_group_mem {g : List ℕ} {p : ℕ} {succs : List ℕ}
    (h : sorted_group g = p :: succs) : p ∈ g ∧ ∀ x ∈ succs, x ∈ g := by
  constructor
  · exact ((sorted_group_perm g).mem_iff).mp (h ▸ List.mem_cons_self p succs)
  · intro x hx
    exact ((sorted_group_perm g).mem_iff).mp (h ▸ List.mem_cons_of_mem p hx)

/-- A `Nodup` group never makes a project its own successor. -/
theorem group_succ_additions_no_self {g : List ℕ} (hnd : g.Nodup) (i : ℕ) :
    ((i : ℤ) + 1) ∉ group_succ_additions g i := by
  intro h
  rcases mem_group_succ_additions.mp h with ⟨p, succs, hs, rfl, hj⟩
  have := sorted_group_nodup hnd
  rw [hs] at this
  exact (List.nodup_cons.mp this).1 hj

/-- A `Nodup` group never makes a project its own prerequisite. -/
theorem group_prereq_additions_no_self {g : List ℕ} (hnd : g.Nodup) (i : ℕ) :
    ((i : ℤ) + 1) ∉ group_prereq_additions g i := by
  intro h
  rcases mem_group_prereq_additions.mp h with ⟨p, succs, hs, rfl, hj⟩
  have := sorted_group_nodup hnd
  rw [hs] at this
  exact (List.nodup_cons.mp this).1 hj

/-! ### Field preservation through the passes -/

theorem generate_prerequisites_post_excl (R : Draws) (N : ℕ) (ps : ℕ → Project)
    (ts : List (ℕ × ℚ)) (j : ℕ) :
    (generate_prerequisites_post R N ps ts j).exclusion_list = (ps j).exclusion_list := by
  rw [generate_prerequisites_post_apply]

theorem generate_prerequisites_post_core (R : Draws) (N : ℕ) (ps : ℕ → Project)
    (ts : List (ℕ × ℚ)) (j : ℕ) :
    (generate_prerequisites_post R N ps ts j).cost = (ps j).cost ∧
    (generate_prerequisites_post R N ps ts j).value = (ps j).value ∧
    (generate_prerequisites_post R N ps ts j).duration = (ps j).duration ∧
    (generate_prerequisites_post R N ps ts j).total_cost = (ps j).total_cost ∧
    (generate_prerequisites_post R N ps ts j).id = (ps j).id := by
  rw [generate_prerequisites_post_apply]
  exact ⟨rfl, rfl, rfl, rfl, rfl⟩

theorem generate_exclusions_post_prereq_succ (R : Draws) (N : ℕ) (ps : ℕ → Project)
    (ts : List (ℕ × ℚ)) (j : ℕ) :
    (generate_exclusions_post R N ps ts j).prerequisite_list = (ps j).prerequisite_list ∧
    (generate_exclusions_post R N ps ts j).successor_list = (ps j).successor_list := by
  rw [generate_exclusions_post_apply]
  exact ⟨rfl, rfl⟩

theorem generate_exclusions_post_core (R : Draws) (N : ℕ) (ps : ℕ → Project)
    (ts : List (ℕ × ℚ)) (j : ℕ) :
    (generate_exclusions_post R N ps ts j).cost = (ps j).cost ∧
    (generate_exclusions_post R N ps ts j).value = (ps j).value ∧
    (generate_exclusions_post R N ps ts j).duration = (ps j).duration ∧
    (generate_exclusions_post R N ps ts j).total_cost = (ps j).total_cost ∧
    (generate_exclusions_post R N ps ts j).id = (ps j).id := by
  rw [generate_exclusions_post_apply]
  exact ⟨rfl, rfl, rfl, rfl, rfl⟩

/-! ### Inversion of the per-project construction -/

theorem generate_project_eq_some {R : Draws} {factor : ℝ} {fuel : ℕ} {i : ℕ} {p : Project}
    (h : generate_project R factor fuel i = some p) :
    1 ≤ (R.costDur i).1 ∧
    ∃ cost value,
      fuzzy_weibull_cost_distribution (R.shapeDraws (2 * i)) (R.scaleDraw (2 * i)) fuel
        (((R.costDur i).2 : ℤ) : ℝ) (R.costDur i).1.toNat = some cost ∧
      fuzzy_weibull_cost_distribution (R.shapeDraws (2 * i + 1)) (R.scaleDraw (2 * i + 1))
        fuel (total_value_of R factor i) (R.costDur i).1.toNat = some value ∧
      p = { id := (i : ℤ) + 1
            project_name := "Project " ++ toString (i + 1)
            cost := cost
            value := value.map npRound
            duration := (R.costDur i).1.toNat
            total_cost := (R.costDur i).2
            prerequisite_list := []
            successor_list := []
            exclusion_list := [] } := by
  simp only [generate_project] at h
  split at h
  · rename_i hdur
    rcases Option.bind_eq_some.mp h with ⟨cost, hc, h2⟩
    rcases Option.map_eq_some'.mp h2 with ⟨value, hv, rfl⟩
    exact ⟨hdur, cost, value, hc, hv, rfl⟩
  · cases h

theorem base_projects_relations (R : Draws) (factor : ℝ) (fuel : ℕ) (i : ℕ) :
    (base_projects R factor fuel i).prerequisite_list = [] ∧
    (base_projects R factor fuel i).successor_list = [] ∧
    (base_projects R factor fuel i).exclusion_list = [] := by
  unfold base_projects
  cases h : generate_project R factor fuel i with
  | none => exact ⟨rfl, rfl, rfl⟩
  | some p =>
      obtain ⟨_, cost, value, _, _, rfl⟩ := generate_project_eq_some h
      exact ⟨rfl, rfl, rfl⟩

/-! ### Inversion of `create_random_projects` -/

theorem create_random_projects_eq_some {R : Draws} {fuel N : ℕ}
    {pt et st : Option (List (ℕ × ℚ))} {factor : ℝ} {ps : ℕ → Project}
    {syns : List Synergy}
    (h : create_random_projects R fuel N pt et st factor = some (ps, syns)) :
    (∀ i < N, (generate_project R factor fuel i).isSome = true) ∧
    ps = projects_after_relations R fuel N pt et factor ∧
    ((st = none ∧ syns = []) ∨
      ∃ ts, st = some ts ∧ generate_synergies_post R ps N fuel ts = some syns) := by
  unfold create_random_projects at h
  split at h
  · rename_i hall
    have hall' : ∀ i < N, (generate_project R factor fuel i).isSome = true := fun i hi =>
      List.all_eq_true.mp hall _ (List.mem_range.mpr hi)
    cases st with
    | none =>
        rw [Option.some.injEq] at h
        obtain ⟨h1, h2⟩ := Prod.mk.injEq .. ▸ h
        exact ⟨hall', h1.symm, Or.inl ⟨rfl, h2.symm⟩⟩
    | some ts =>
        rcases Option.map_eq_some'.mp h with ⟨syns', hsyns, heq⟩
        obtain ⟨h1, h2⟩ := Prod.mk.injEq .. ▸ heq
        subst h1
        subst h2
        exact ⟨hall', rfl, Or.inr ⟨ts, rfl, hsyns⟩⟩
  · cases h

/-! ### Groups-level membership and disjointness helpers -/

theorem mem_groups_succ_additions {gs : List (List ℕ)} {j : ℕ} {x : ℤ} :
    x ∈ groups_succ_additions gs j ↔ ∃ g ∈ gs, x ∈ group_succ_additions g j := by
  unfold groups_succ_additions
  simp only [List.mem_flatten, List.mem_map]
  constructor
  · rintro ⟨l, ⟨g, hg, rfl⟩, hx⟩
    exact ⟨g, hg, hx⟩
  · rintro ⟨g, hg, hx⟩
    exact ⟨_, ⟨g, hg, rfl⟩, hx⟩

theorem mem_groups_prereq_additions {gs : List (List ℕ)} {j : ℕ} {x : ℤ} :
    x ∈ groups_prereq_additions gs j ↔ ∃ g ∈ gs, x ∈ group_prereq_additions g j := by
  unfold groups_prereq_additions
  simp only [List.mem_flatten, List.mem_map]
  constructor
  · rintro ⟨l, ⟨g, hg, rfl⟩, hx⟩
    exact ⟨g, hg, hx⟩
  · rintro ⟨g, hg, hx⟩
    exact ⟨_, ⟨g, hg, rfl⟩, hx⟩

/-- Draws of `np.random.choice(pool, (g, s), replace=False)` over a shrinking
    pool: all drawn indices across all used groups of the pass are pairwise
    distinct. -/
theorem nodup_flatten_group {gs : List (List ℕ)} (h : gs.flatten.Nodup) :
    ∀ g ∈ gs, g.Nodup := by
  induction gs with
  | nil => intro g hg; cases hg
  | cons g0 rest ih =>
      intro g hg
      rw [List.flatten_cons] at h
      rcases List.mem_cons.mp hg with rfl | hmem
      · exact (List.nodup_append.mp h).1
      · exact ih (List.nodup_append.mp h).2.1 g hmem

theorem nodup_flatten_disjoint {g0 : List ℕ} {rest : List (List ℕ)}
    (h : (g0 :: rest).flatten.Nodup) {m : ℕ} (hm : m ∈ g0) :
    ∀ g' ∈ rest, m ∉ g' := by
  rw [List.flatten_cons] at h
  intro g' hg' hmem
  exact (List.nodup_append.mp h).2.2 hm (List.mem_flatten.mpr ⟨g', hg', hmem⟩)

theorem group_prereq_additions_empty {g : List ℕ} {m : ℕ} (hm : m ∉ g) :
    group_prereq_additions g m = [] := by
  cases hs : sorted_group g with
  | nil => exact group_prereq_additions_of_nil hs m
  | cons p succs =>
      rw [group_prereq_additions_of hs]
      apply List.filterMap_eq_nil_iff.mpr
      intro s hsmem
      rw [if_neg]
      intro hsm
      subst hsm
      exact hm ((sorted_group_mem hs).2 s hsmem)

theorem groups_prereq_additions_eq_nil {gs : List (List ℕ)} {m : ℕ}
    (h : ∀ g ∈ gs, group_prereq_additions g m = []) :
    groups_prereq_additions gs m = [] := by
  induction gs with
  | nil => rfl
  | cons g0 rest ih =>
      unfold groups_prereq_additions at ih ⊢
      rw [List.map_cons, List.flatten_cons, h g0 (List.mem_cons_self g0 rest),
        List.nil_append]
      exact ih fun g hg => h g (List.mem_cons_of_mem g0 hg)

theorem filterMap_if_single {succs : List ℕ} {m : ℕ} {v : ℤ} (hnd : succs.Nodup)
    (hm : m ∈ succs) :
    succs.filterMap (fun s => if s = m then some v else none) = [v] := by
  induction succs with
  | nil => cases hm
  | cons s rest ih =>
      rw [List.filterMap_cons]
      rcases List.mem_cons.mp hm with heq | hmem
      · rw [if_pos heq.symm]
        have hnot : s ∉ rest := (List.nodup_cons.mp hnd).1
        have hnil : rest.filterMap (fun x => if x = m then some v else none) = [] := by
          apply List.filterMap_eq_nil_iff.mpr
          intro x hx
          rw [if_neg]
          intro hxm
          rw [hxm, heq] at hx
          exact hnot hx
        rw [hnil]
      · have hsm : ¬ s = m := by
          intro hsm
          subst hsm
          exact (List.nodup_cons.mp hnd).1 hmem
        rw [if_neg hsm]
        exact ih (List.nodup_cons.mp hnd).2 hmem

/-- If the drawn prerequisite groups are globally disjoint and `m` lies in the
    successor part of the (unique) group `g`, the concatenated prerequisite
    additions for `m` are exactly the singleton coming from `g`. -/
theorem groups_prereq_additions_single {gs : List (List ℕ)} {m : ℕ} {g : List ℕ} {v : ℤ}
    (hflat : gs.flatten.Nodup) (hg : g ∈ gs) (hm : m ∈ g)
    (hsingle : group_prereq_additions g m = [v]) :
    groups_prereq_additions gs m = [v] := by
  induction gs with
  | nil => cases hg
  | cons g0 rest ih =>
      unfold groups_prereq_additions
      rw [List.map_cons, List.flatten_cons]
      rcases List.mem_cons.mp hg with rfl | hmem
      · rw [hsingle]
        have hrest : ∀ g' ∈ rest, group_prereq_additions g' m = [] := fun g' hg' =>
          group_prereq_additions_empty (nodup_flatten_disjoint hflat hm g' hg')
        rw [show (rest.map fun g => group_prereq_additions g m).flatten =
            groups_prereq_additions rest m from rfl]
        rw [groups_prereq_additions_eq_nil hrest, List.append_nil]
      · have hm0 : m ∉ g0 := by
          intro hmem0
          exact nodup_flatten_disjoint hflat hmem0 g hmem hm
        rw [group_prereq_additions_empty hm0, List.nil_append]
        rw [show (rest.map fun g => group_prereq_additions g m).flatten =
            groups_prereq_additions rest m from rfl]
        have hflat2 := hflat
        rw [List.flatten_cons] at hflat2
        exact ih (List.nodup_append.mp hflat2).2.1 hmem

/-! ### Relation lists after both constraint passes -/

def final_exclusions (R : Draws) (N : ℕ) (et : Option (List (ℕ × ℚ))) (j : ℕ) : List ℤ :=
  match et with
  | none => []
  | some ts => groups_exclusion_additions (excl_used_groups R N ts 0) j

def final_successors (R : Draws) (N : ℕ) (pt : Option (List (ℕ × ℚ))) (j : ℕ) : List ℤ :=
  match pt with
  | none => []
  | some ts => groups_succ_additions (prereq_used_groups R N ts 0) j

def final_prerequisites (R : Draws) (N : ℕ) (pt : Option (List (ℕ × ℚ))) (j : ℕ) :
    List ℤ :=
  match pt with
  | none => []
  | some ts => groups_prereq_additions (prereq_used_groups R N ts 0) j

theorem projects_after_relations_excl (R : Draws) (fuel N : ℕ)
    (pt et : Option (List (ℕ × ℚ))) (factor : ℝ) (j : ℕ) :
    (projects_after_relations R fuel N pt et factor j).exclusion_list =
      final_exclusions R N et j := by
  obtain ⟨-, -, hbase⟩ := base_projects_relations R factor fuel j
  unfold projects_after_relations final_exclusions
  cases pt with
  | none =>
      cases et with
      | none => exact hbase
      | some ts =>
          show (generate_exclusions_post R N (base_projects R factor fuel) ts j).exclusion_list
            = groups_exclusion_additions (excl_used_groups R N ts 0) j
          rw [generate_exclusions_post_apply]
          show (base_projects R factor fuel j).exclusion_list ++ _ = _
          rw [hbase, List.nil_append]
  | some ts =>
      cases et with
      | none =>
          show (generate_prerequisites_post R N (base_projects R factor fuel) ts j).exclusion_list = []
          rw [generate_prerequisites_post_excl]
          exact hbase
      | some ts2 =>
          show (generate_prerequisites_post R N
              (generate_exclusions_post R N (base_projects R factor fuel) ts2) ts j).exclusion_list
            = groups_exclusion_additions (excl_used_groups R N ts2 0) j
          rw [generate_prerequisites_post_excl, generate_exclusions_post_apply]
          show (base_projects R factor fuel j).exclusion_list ++ _ = _
          rw [hbase, List.nil_append]

theorem projects_after_relations_succ (R : Draws) (fuel N : ℕ)
    (pt et : Option (List (ℕ × ℚ))) (factor : ℝ) (j : ℕ) :
    (projects_after_relations R fuel N pt et factor j).successor_list =
      final_successors R N pt j := by
  obtain ⟨-, hbase, -⟩ := base_projects_relations R factor fuel j
  unfold projects_after_relations final_successors
  cases pt with
  | none =>
      cases et with
      | none => exact hbase
      | some ts =>
          show (generate_exclusions_post R N (base_projects R factor fuel) ts j).successor_list = []
          rw [(generate_exclusions_post_prereq_succ R N _ ts j).2]
          exact hbase
  | some ts =>
      cases et with
      | none =>
          show (generate_prerequisites_post R N (base_projects R factor fuel) ts j).successor_list
            = groups_succ_additions (prereq_used_groups R N ts 0) j
          rw [generate_prerequisites_post_apply]
          show (base_projects R factor fuel j).successor_list ++ _ = _
          rw [hbase, List.nil_append]
      | some ts2 =>
          show (generate_prerequisites_post R N
              (generate_exclusions_post R N (base_projects R factor fuel) ts2) ts j).successor_list
            = groups_succ_additions (prereq_used_groups R N ts 0) j
          rw [generate_prerequisites_post_apply]
          show (generate_exclusions_post R N (base_projects R factor fuel) ts2 j).successor_list ++ _ = _
          rw [(generate_exclusions_post_prereq_succ R N _ ts2 j).2, hbase, List.nil_append]

theorem projects_after_relations_prereq (R : Draws) (fuel N : ℕ)
    (pt et : Option (List (ℕ × ℚ))) (factor : ℝ) (j : ℕ) :
    (projects_after_relations R fuel N pt et factor j).prerequisite_list =
      final_prerequisites R N pt j := by
  obtain ⟨hbase, -, -⟩ := base_projects_relations R factor fuel j
  unfold projects_after_relations final_prerequisites
  cases pt with
  | none =>
      cases et with
      | none => exact hbase
      | some ts =>
          show (generate_exclusions_post R N (base_projects R factor fuel) ts j).prerequisite_list = []
          rw [(generate_exclusions_post_prereq_succ R N _ ts j).1]
          exact hbase
  | some ts =>
      cases et with
      | none =>
          show (generate_prerequisites_post R N (base_projects R factor fuel) ts j).prerequisite_list
            = groups_prereq_additions (prereq_used_groups R N ts 0) j
          rw [generate_prerequisites_post_apply]
          show (base_projects R factor fuel j).prerequisite_list ++ _ = _
          rw [hbase, List.nil_append]
      | some ts2 =>
          show (generate_prerequisites_post R N
              (generate_exclusions_post R N (base_projects R factor fuel) ts2) ts j).prerequisite_list
            = groups_prereq_additions (prereq_used_groups R N ts 0) j
          rw [generate_prerequisites_post_apply]
          show (generate_exclusions_post R N (base_projects R factor fuel) ts2 j).prerequisite_list ++ _ = _
          rw [(generate_exclusions_post_prereq_succ R N _ ts2 j).1, hbase, List.nil_append]

theorem projects_after_relations_core (R : Draws) (fuel N : ℕ)
    (pt et : Option (List (ℕ × ℚ))) (factor : ℝ) (j : ℕ) :
    (projects_after_relations R fuel N pt et factor j).cost =
      (base_projects R factor fuel j).cost ∧
    (projects_after_relations R fuel N pt et factor j).value =
      (base_projects R factor fuel j).value ∧
    (projects_after_relations R fuel N pt et factor j).duration =
      (base_projects R factor fuel j).duration ∧
    (projects_after_relations R fuel N pt et factor j).total_cost =
      (base_projects R factor fuel j).total_cost ∧
    (projects_after_relations R fuel N pt et factor j).id =
      (base_projects R factor fuel j).id := by
  unfold projects_after_relations
  cases pt with
  | none =>
      cases et with
      | none => exact ⟨rfl, rfl, rfl, rfl, rfl⟩
      | some ts => exact generate_exclusions_post_core R N _ ts j
  | some ts =>
      cases et with
      | none => exact generate_prerequisites_post_core R N _ ts j
      | some ts2 =>
          have h1 := generate_prerequisites_post_core R N
            (generate_exclusions_post R N (base_projects R factor fuel) ts2) ts j
          have h2 := generate_exclusions_post_core R N (base_projects R factor fuel) ts2 j
          exact ⟨h1.1.trans h2.1, h1.2.1.trans h2.2.1, h1.2.2.1.trans h2.2.2.1,
            h1.2.2.2.1.trans h2.2.2.2.1, h1.2.2.2.2.trans h2.2.2.2.2⟩

/-! ### Invariants of the final relation lists -/

/-- Guarantee of `np.random.choice(..., replace=False)` for the exclusion
    pass: each drawn group consists of pairwise distinct indices. -/
def ExclChoiceND (R : Draws) (N : ℕ) : Option (List (ℕ × ℚ)) → Prop
  | none => True
  | some ts => ∀ g ∈ excl_used_groups R N ts 0, g.Nodup

/-- Guarantee of `np.random.choice(..., replace=False)` for the prerequisite
    pass: each drawn group consists of pairwise distinct indices. -/
def PrereqChoiceND (R : Draws) (N : ℕ) : Option (List (ℕ × ℚ)) → Prop
  | none => True
  | some ts => ∀ g ∈ prereq_used_groups R N ts 0, g.Nodup

/-- Combined guarantee of `replace=False` and the shrinking pool
    (`indices = np.setdiff1d(indices, groups)`) for the prerequisite pass:
    all indices drawn across all used groups are pairwise distinct. -/
def PrereqChoiceDisjoint (R : Draws) (N : ℕ) : Option (List (ℕ × ℚ)) → Prop
  | none => True
  | some ts => (prereq_used_groups R N ts 0).flatten.Nodup

theorem final_exclusions_symm (R : Draws) (N : ℕ) (et : Option (List (ℕ × ℚ)))
    (i j : ℕ) :
    ((j : ℤ) + 1) ∈ final_exclusions R N et i ↔
      ((i : ℤ) + 1) ∈ final_exclusions R N et j := by
  cases et with
  | none => exact iff_of_false (List.not_mem_nil _) (List.not_mem_nil _)
  | some ts =>
      show _ ∈ groups_exclusion_additions _ _ ↔ _ ∈ groups_exclusion_additions _ _
      rw [mem_groups_exclusion_additions, mem_groups_exclusion_additions]
      constructor
      · rintro ⟨g, hg, hx⟩
        exact ⟨g, hg, group_exclusion_additions_symm.mp hx⟩
      · rintro ⟨g, hg, hx⟩
        exact ⟨g, hg, group_exclusion_additions_symm.mp hx⟩

theorem final_exclusions_no_self {R : Draws} {N : ℕ} {et : Option (List (ℕ × ℚ))}
    (hnd : ExclChoiceND R N et) (i : ℕ) :
    ((i : ℤ) + 1) ∉ final_exclusions R N et i := by
  cases et with
  | none => exact List.not_mem_nil _
  | some ts =>
      intro h
      rcases mem_groups_exclusion_additions.mp h with ⟨g, hg, hx⟩
      exact group_exclusion_additions_no_self (hnd g hg) hx

theorem final_prereq_inverse (R : Draws) (N : ℕ) (pt : Option (List (ℕ × ℚ)))
    (i j : ℕ) :
    ((j : ℤ) + 1) ∈ final_successors R N pt i ↔
      ((i : ℤ) + 1) ∈ final_prerequisites R N pt j := by
  cases pt with
  | none => exact iff_of_false (List.not_mem_nil _) (List.not_mem_nil _)
  | some ts =>
      show _ ∈ groups_succ_additions _ _ ↔ _ ∈ groups_prereq_additions _ _
      rw [mem_groups_succ_additions, mem_groups_prereq_additions]
      constructor
      · rintro ⟨g, hg, hx⟩
        exact ⟨g, hg, group_prereq_inverse.mp hx⟩
      · rintro ⟨g, hg, hx⟩
        exact ⟨g, hg, group_prereq_inverse.mpr hx⟩

theorem final_successors_no_self {R : Draws} {N : ℕ} {pt : Option (List (ℕ × ℚ))}
    (hnd : PrereqChoiceND R N pt) (i : ℕ) :
    ((i : ℤ) + 1) ∉ final_successors R N pt i := by
  cases pt with
  | none => exact List.not_mem_nil _
  | some ts =>
      intro h
      rcases mem_groups_succ_additions.mp h with ⟨g, hg, hx⟩
      exact group_succ_additions_no_self (hnd g hg) i hx

theorem final_prerequisites_no_self {R : Draws} {N : ℕ} {pt : Option (List (ℕ × ℚ))}
    (hnd : PrereqChoiceND R N pt) (i : ℕ) :
    ((i : ℤ) + 1) ∉ final_prerequisites R N pt i := by
  cases pt with
  | none => exact List.not_mem_nil _
  | some ts =>
      intro h
      rcases mem_groups_prereq_additions.mp h with ⟨g, hg, hx⟩
      exact group_prereq_additions_no_self (hnd g hg) i hx

/-- For disjoint prerequisite draws, a member of the successor part of a drawn
    group gets exactly one prerequisite: the group's least member. -/
theorem final_prerequisites_sole {R : Draws} {N : ℕ} {ts : List (ℕ × ℚ)}
    (hdisj : (prereq_used_groups R N ts 0).flatten.Nodup)
    {g : List ℕ} {p m : ℕ} {succs : List ℕ}
    (hg : g ∈ prereq_used_groups R N ts 0) (hs : sorted_group g = p :: succs)
    (hm : m ∈ succs) :
    final_prerequisites R N (some ts) m = [(p : ℤ) + 1] := by
  show groups_prereq_additions _ _ = _
  apply groups_prereq_additions_single hdisj hg ((sorted_group_mem hs).2 m hm)
  rw [group_prereq_additions_of hs]
  apply filterMap_if_single _ hm
  have hnd := sorted_group_nodup (nodup_flatten_group hdisj g hg)
  rw [hs] at hnd
  exact (List.nodup_cons.mp hnd).2

theorem final_successors_contains {R : Draws} {N : ℕ} {ts : List (ℕ × ℚ)}
    {g : List ℕ} {p m : ℕ} {succs : List ℕ}
    (hg : g ∈ prereq_used_groups R N ts 0) (hs : sorted_group g = p :: succs)
    (hm : m ∈ succs) :
    ((m : ℤ) + 1) ∈ final_successors R N (some ts) p := by
  show _ ∈ groups_succ_additions _ _
  exact mem_groups_succ_additions.mpr
    ⟨g, hg, mem_group_succ_additions.mpr ⟨p, succs, hs, rfl, hm⟩⟩

/-! ### The synergy pass -/

/-- Range guarantee of `np.random.randint(low, high)` (it returns a value in
    `[low, high)` whenever `low < high`, and raises otherwise). -/
def Draws.RandintWF (R : Draws) : Prop :=
  ∀ (lo hi : ℤ) (k : ℕ), lo < hi → lo ≤ R.randint lo hi k ∧ R.randint lo hi k < hi

theorem draw_synergy_group_eq_some {R : Draws} {ps : ℕ → Project} {size : ℕ}
    {fuel k : ℕ} {g : List ℕ} {k' : ℕ}
    (h : draw_synergy_group R ps size fuel k = some (g, k')) :
    group_conflict ps g = false ∧ ∃ k0, g = R.synGroup size k0 := by
  induction fuel generalizing k with
  | zero => cases h
  | succ n ih =>
      rw [draw_synergy_group] at h
      split at h
      · exact ih h
      · rename_i hc
        rw [Option.some.injEq] at h
        obtain ⟨h1, -⟩ := Prod.mk.injEq .. ▸ h
        subst h1
        exact ⟨by simpa using hc, ⟨k, rfl⟩⟩

theorem generate_synergy_groups_mem {R : Draws} {ps : ℕ → Project} {size fuel : ℕ} :
    ∀ {n k m : ℕ} {out : List Synergy × ℕ × ℕ},
      generate_synergy_groups R ps size fuel n k m = some out →
      ∀ syn ∈ out.1,
        group_conflict ps syn.project_ids = false ∧
        1 < total_group_value ps syn.project_ids ∧
        (∃ k0, syn.project_ids = R.synGroup size k0) ∧
        ∃ m0, syn.value = R.randint 1 (total_group_value ps syn.project_ids) m0 := by
  intro n
  induction n with
  | zero =>
      intro k m out h
      rw [generate_synergy_groups, Option.some.injEq] at h
      subst h
      intro syn hsyn
      cases hsyn
  | succ n ih =>
      intro k m out h
      rw [generate_synergy_groups] at h
      rcases Option.bind_eq_some.mp h with ⟨gk, hgk, h2⟩
      split at h2
      · cases h2
      · rename_i htv
        rcases Option.map_eq_some'.mp h2 with ⟨rest, hrest, rfl⟩
        intro syn hsyn
        rcases List.mem_cons.mp hsyn with rfl | hmem
        · have hdraw := draw_synergy_group_eq_some hgk
          exact ⟨hdraw.1, lt_of_not_le htv, hdraw.2, ⟨m, rfl⟩⟩
        · exact ih hrest syn hmem

/-- If the accepted group's total value is ≤ 1, the synergy generation aborts
    (`np.random.randint(1, total_group_value)` raises `ValueError`). -/
theorem generate_synergy_groups_abort {R : Draws} {ps : ℕ → Project}
    {size fuel n k m : ℕ} {g : List ℕ} {k' : ℕ}
    (hdraw : draw_synergy_group R ps size fuel k = some (g, k'))
    (htv : total_group_value ps g ≤ 1) :
    generate_synergy_groups R ps size fuel (n + 1) k m = none := by
  rw [generate_synergy_groups, hdraw, Option.some_bind]
  rw [if_pos htv]

theorem generate_synergies_rounds_mem {R : Draws} {ps : ℕ → Project} {N fuel : ℕ} :
    ∀ {ts : List (ℕ × ℚ)} {k m : ℕ} {syns : List Synergy},
      generate_synergies_rounds R ps N fuel ts k m = some syns →
      ∀ syn ∈ syns,
        group_conflict ps syn.project_ids = false ∧
        1 < total_group_value ps syn.project_ids ∧
        (∃ s0 k0, syn.project_ids = R.synGroup s0 k0) ∧
        ∃ m0, syn.value = R.randint 1 (total_group_value ps syn.project_ids) m0 := by
  intro ts
  induction ts with
  | nil =>
      intro k m syns h
      rw [generate_synergies_rounds, Option.some.injEq] at h
      subst h
      intro syn hsyn
      cases hsyn
  | cons t rest ih =>
      obtain ⟨size, prop⟩ := t
      intro k m syns h
      rw [generate_synergies_rounds] at h
      rcases Option.bind_eq_some.mp h with ⟨out, hout, h2⟩
      rcases Option.map_eq_some'.mp h2 with ⟨syns2, hsyns2, rfl⟩
      intro syn hsyn
      rcases List.mem_append.mp hsyn with hmem | hmem
      · have := generate_synergy_groups_mem hout syn hmem
        exact ⟨this.1, this.2.1, ⟨size, this.2.2.1.choose, this.2.2.1.choose_spec⟩,
          this.2.2.2⟩
      · exact ih hsyns2 syn hmem

theorem generate_synergies_post_mem {R : Draws} {ps : ℕ → Project} {N fuel : ℕ}
    {ts : List (ℕ × ℚ)} {syns : List Synergy}
    (h : generate_synergies_post R ps N fuel ts = some syns) :
    ∀ syn ∈ syns,
      group_conflict ps syn.project_ids = false ∧
      1 < total_group_value ps syn.project_ids ∧
      ∃ m0, syn.value = R.randint 1 (total_group_value ps syn.project_ids) m0 := by
  intro syn hsyn
  have := generate_synergies_rounds_mem h syn hsyn
  exact ⟨this.1, this.2.1, this.2.2.2⟩

/-! ### Rounded value sums -/

theorem intCast_sum_map_npRound {l : List ℝ}
    (hint : ∀ x ∈ l, ∃ n : ℤ, x = (n : ℝ)) :
    (((l.map npRound).sum : ℤ) : ℝ) = l.sum := by
  induction l with
  | nil => simp
  | cons x rest ih =>
      obtain ⟨n, rfl⟩ := hint x (List.mem_cons_self x rest)
      rw [List.map_cons, List.sum_cons, List.sum_cons, Int.cast_add, npRound_intCast]
      rw [ih fun y hy => hint y (List.mem_cons_of_mem _ hy)]

theorem sum_map_npRound_close {l : List ℝ} (hne : l ≠ [])
    (hint : ∀ x ∈ l.dropLast, ∃ n : ℤ, x = (n : ℝ)) :
    |(((l.map npRound).sum : ℤ) : ℝ) - l.sum| ≤ 1 / 2 := by
  have hdec := List.dropLast_append_getLast hne
  have h1 : ((l.dropLast.map npRound).sum : ℝ) = l.dropLast.sum :=
    intCast_sum_map_npRound hint
  have h2 := abs_npRound_sub (l.getLast hne)
  have hmap : (l.map npRound).sum =
      (l.dropLast.map npRound).sum + npRound (l.getLast hne) := by
    conv_lhs => rw [← hdec]
    rw [List.map_append, List.sum_append, List.map_singleton, List.sum_singleton]
  have hsum : l.sum = l.dropLast.sum + l.getLast hne := by
    conv_lhs => rw [← hdec]
    rw [List.sum_append, List.sum_singleton]
  rw [hmap, hsum, Int.cast_add]
  have key : ((l.dropLast.map npRound).sum : ℝ) + ((npRound (l.getLast hne) : ℤ) : ℝ) -
      (l.dropLast.sum + l.getLast hne) =
      ((npRound (l.getLast hne) : ℤ) : ℝ) - l.getLast hne := by
    rw [h1]
    ring
  rw [key]
  exact h2

theorem fuzzy_eq_some_facts {shape_draws : ℕ → ℝ} {scale_draw : ℝ} {fuel : ℕ} {T : ℝ}
    {D : ℕ} {out : List ℝ}
    (h : fuzzy_weibull_cost_distribution shape_draws scale_draw fuel T D = some out) :
    out.sum = T ∧ out.length = D - 1 + 1 ∧ out ≠ [] ∧
    ∀ x ∈ out.dropLast, ∃ n : ℤ, x = (n : ℝ) := by
  rcases Option.map_eq_some'.mp h with ⟨sh, hsh, rfl⟩
  refine ⟨?_, fuzzy_weibull_iter_length .., ?_, fuzzy_weibull_iter_dropLast_int _ _ _ _ _ _ _ _⟩
  · rw [fuzzy_weibull_iter_sum]; ring
  · apply List.ne_nil_of_length_pos
    rw [fuzzy_weibull_iter_length]
    omega

/-- The per-project guarantees of the construction loop: the cost profile has
    `duration` entries and sums exactly to `total_cost`; the value profile has
    `duration` entries and sums to the rounded total value (within `1/2` of
    the value rule's output). -/
theorem base_projects_spec {R : Draws} {factor : ℝ} {fuel i : ℕ}
    (h : (generate_project R factor fuel i).isSome = true) :
    (base_projects R factor fuel i).cost.length = (base_projects R factor fuel i).duration ∧
    (base_projects R factor fuel i).cost.sum =
      ((base_projects R factor fuel i).total_cost : ℝ) ∧
    (base_projects R factor fuel i).value.length = (base_projects R factor fuel i).duration ∧
    |(((base_projects R factor fuel i).value.sum : ℤ) : ℝ) - total_value_of R factor i| ≤
      1 / 2 := by
  rcases Option.isSome_iff_exists.mp h with ⟨p, hp⟩
  obtain ⟨hdur, cost, value, hc, hv, rfl⟩ := generate_project_eq_some hp
  have hbase : base_projects R factor fuel i =
      { id := (i : ℤ) + 1
        project_name := "Project " ++ toString (i + 1)
        cost := cost
        value := value.map npRound
        duration := (R.costDur i).1.toNat
        total_cost := (R.costDur i).2
        prerequisite_list := []
        successor_list := []
        exclusion_list := [] } := by
    unfold base_projects
    rw [hp]
    rfl
  rw [hbase]
  obtain ⟨hcsum, hclen, hcne, hcint⟩ := fuzzy_eq_some_facts hc
  obtain ⟨hvsum, hvlen, hvne, hvint⟩ := fuzzy_eq_some_facts hv
  have hD : 1 ≤ (R.costDur i).1.toNat := by omega
  refine ⟨?_, hcsum, ?_, ?_⟩
  · show cost.length = (R.costDur i).1.toNat
    omega
  · show (value.map npRound).length = (R.costDur i).1.toNat
    rw [List.length_map]
    omega
  · show |(((value.map npRound).sum : ℤ) : ℝ) - total_value_of R factor i| ≤ 1 / 2
    have := sum_map_npRound_close hvne hvint
    rw [hvsum] at this
    exact this

/-! ### Budget schedule lemmas -/

theorem budget_of_length (param : InstanceParameters) :
    (budget_of param).length = param.planning_window + param.max_proj_length := by
  simp [budget_of]

theorem budget_of_get (param : InstanceParameters) (y : ℕ)
    (hy : y < (budget_of param).length) :
    (budget_of param).get ⟨y, hy⟩ =
      param.base_budget + (y : ℚ) * param.yearly_budget_increase := by
  unfold budget_of at hy ⊢
  rw [List.get_eq_getElem, List.getElem_map, List.getElem_range]

theorem budget_of_monotone {param : InstanceParameters}
    (hinc : 0 ≤ param.yearly_budget_increase) (y1 y2 : ℕ) (h12 : y1 ≤ y2)
    (hy1 : y1 < (budget_of param).length) (hy2 : y2 < (budget_of param).length) :
    (budget_of param).get ⟨y1, hy1⟩ ≤ (budget_of param).get ⟨y2, hy2⟩ := by
  rw [budget_of_get, budget_of_get]
  have : (y1 : ℚ) ≤ (y2 : ℚ) := by exact_mod_cast h12
  nlinarith

/-! ### The realized maximum duration -/

theorem le_foldl_max (l : List ℕ) (a : ℕ) :
    a ≤ l.foldl max a ∧ ∀ x ∈ l, x ≤ l.foldl max a := by
  induction l generalizing a with
  | nil => exact ⟨le_refl a, fun x hx => absurd hx (List.not_mem_nil x)⟩
  | cons y rest ih =>
      rw [List.foldl_cons]
      refine ⟨le_trans (le_max_left a y) (ih (max a y)).1, ?_⟩
      intro x hx
      rcases List.mem_cons.mp hx with rfl | hmem
      · exact le_trans (le_max_right a x) (ih (max a x)).1
      · exact (ih (max a y)).2 x hmem

theorem foldl_max_mem (l : List ℕ) (a : ℕ) :
    l.foldl max a = a ∨ l.foldl max a ∈ l := by
  induction l generalizing a with
  | nil => exact Or.inl rfl
  | cons y rest ih =>
      rw [List.foldl_cons]
      rcases ih (max a y) with heq | hmem
      · rcases max_choice a y with hay | hay
        · exact Or.inl (heq.trans hay)
        · exact Or.inr (by rw [heq, hay]; exact List.mem_cons_self y rest)
      · exact Or.inr (List.mem_cons_of_mem y hmem)

/-- `max_proj_length_of ps N` is the maximum duration over the generated
    projects: it bounds every duration, and is realized by some project
    (or is `0` when there are no projects). -/
theorem max_proj_length_of_spec (ps : ℕ → Project) (N : ℕ) :
    (∀ i < N, (ps i).duration ≤ max_proj_length_of ps N) ∧
    (max_proj_length_of ps N = 0 ∨ ∃ i < N, (ps i).duration = max_proj_length_of ps N) := by
  unfold max_proj_length_of
  constructor
  · intro i hi
    exact (le_foldl_max _ 0).2 _ (List.mem_map.mpr ⟨i, List.mem_range.mpr hi, rfl⟩)
  · rcases foldl_max_mem ((List.range N).map fun i => (ps i).duration) 0 with heq | hmem
    · exact Or.inl heq
    · rcases List.mem_map.mp hmem with ⟨i, hi, heq⟩
      exact Or.inr ⟨i, List.mem_range.mp hi, heq⟩

/-! ### Concrete oracles for counterexamples and witnesses -/

/-- Duration-1 allocation: the loop body is empty and the single period
    absorbs the whole total. -/
theorem fuzzy_weibull_duration_one (T : ℝ) :
    fuzzy_weibull_cost_distribution (fun _ => 1) 1 1 T 1 = some [T] := by
  unfold fuzzy_weibull_cost_distribution
  rw [show resample_shape (fun _ => (1 : ℝ)) 1 = some 1 from by
    rw [resample_shape, if_neg (by norm_num)]]
  rw [Option.map_some']
  rw [show (1 : ℕ) - 1 = 0 from rfl, fuzzy_weibull_iter]
  norm_num

theorem npRound_one : npRound (1 : ℝ) = 1 := by
  rw [show (1 : ℝ) = ((1 : ℤ) : ℝ) by norm_num, npRound_intCast]

theorem npRound_half : npRound (1 / 2 : ℝ) = 0 := by
  have hfl : ⌊(1 / 2 : ℝ)⌋ = 0 := by
    rw [Int.floor_eq_iff]
    norm_num
  unfold npRound
  rw [hfl]
  rw [if_pos (by norm_num)]
  rw [if_pos ⟨0, by norm_num⟩]

/-- A concrete oracle: one project of duration 1 and total cost 1, value draw
    `u = 1/4`, so the value rule yields the non-integral total value `1/2`. -/
noncomputable def cDrawsA : Draws :=
  { costDur := fun _ => (1, 1)
    shapeDraws := fun _ _ => 1
    scaleDraw := fun _ => 1
    valueU := fun _ => 1 / 4
    valueDistDraw := fun _ _ => 0
    prereqGroups := fun _ => []
    exclGroups := fun _ => []
    synGroup := fun _ _ => []
    randint := fun lo _ _ => lo }

theorem generate_project_cA (i : ℕ) :
    generate_project cDrawsA 2 1 i = some
      { id := (i : ℤ) + 1
        project_name := "Project " ++ toString (i + 1)
        cost := [1]
        value := [0]
        duration := 1
        total_cost := 1
        prerequisite_list := []
        successor_list := []
        exclusion_list := [] } := by
  unfold generate_project
  rw [show cDrawsA.costDur i = (1, 1) from rfl]
  rw [if_pos (by norm_num : (1 : ℤ) ≤ 1)]
  dsimp only
  rw [show cDrawsA.shapeDraws (2 * i) = fun _ => 1 from rfl,
    show cDrawsA.scaleDraw (2 * i) = 1 from rfl,
    show cDrawsA.shapeDraws (2 * i + 1) = fun _ => 1 from rfl,
    show cDrawsA.scaleDraw (2 * i + 1) = 1 from rfl,
    show ((1 : ℤ) : ℝ) = 1 by norm_num,
    show Int.toNat 1 = 1 from rfl]
  rw [fuzzy_weibull_duration_one, Option.some_bind]
  have hval : random_cost_dur_value 1 1 2 (cDrawsA.valueU i) (cDrawsA.valueDistDraw i)
      = 1 / 2 := by
    unfold random_cost_dur_value
    rw [show cDrawsA.valueU i = 1 / 4 from rfl]
    norm_num
  rw [hval, fuzzy_weibull_duration_one, Option.map_some']
  rw [show List.map npRound [1 / 2] = [0] from by
    rw [List.map_singleton, npRound_half]]

noncomputable def psA : ℕ → Project := projects_after_relations cDrawsA 1 1 none none 2

theorem cA_run : create_random_projects cDrawsA 1 1 none none none 2 = some (psA, []) := by
  unfold create_random_projects
  have hall : (List.range 1).all (fun i => (generate_project cDrawsA 2 1 i).isSome) = true := by
    rw [show List.range 1 = [0] from rfl, List.all_cons, List.all_nil,
      generate_project_cA 0]
    rfl
  rw [if_pos hall]
  rfl

theorem psA_value : (psA 0).value = [0] := by
  show (projects_after_relations cDrawsA 1 1 none none 2 0).value = [0]
  rw [(projects_after_relations_core cDrawsA 1 1 none none 2 0).2.1]
  unfold base_projects
  rw [generate_project_cA 0]
  rfl

theorem cA_total_value : total_value_of cDrawsA 2 0 = 1 / 2 := by
  unfold total_value_of
  rw [show cDrawsA.costDur 0 = (1, 1) from rfl]
  dsimp only
  unfold random_cost_dur_value
  rw [show cDrawsA.valueU 0 = 1 / 4 from rfl]
  norm_num

/-- A concrete oracle over two projects with an exclusion pair, a prerequisite
    pair and a synergy pair all hitting the same two projects. -/
noncomputable def cDrawsB : Draws :=
  { costDur := fun _ => (1, 1)
    shapeDraws := fun _ _ => 1
    scaleDraw := fun _ => 1
    valueU := fun _ => 1 / 2
    valueDistDraw := fun _ _ => 0
    prereqGroups := fun _ => [[0, 1]]
    exclGroups := fun _ => [[0, 1]]
    synGroup := fun _ _ => [0, 1]
    randint := fun lo _ _ => lo }

def cTup : List (ℕ × ℚ) := [(2, 1)]

theorem generate_project_cB (i : ℕ) :
    generate_project cDrawsB 2 1 i = some
      { id := (i : ℤ) + 1
        project_name := "Project " ++ toString (i + 1)
        cost := [1]
        value := [1]
        duration := 1
        total_cost := 1
        prerequisite_list := []
        successor_list := []
        exclusion_list := [] } := by
  unfold generate_project
  rw [show cDrawsB.costDur i = (1, 1) from rfl]
  rw [if_pos (by norm_num : (1 : ℤ) ≤ 1)]
  dsimp only
  rw [show cDrawsB.shapeDraws (2 * i) = fun _ => 1 from rfl,
    show cDrawsB.scaleDraw (2 * i) = 1 from rfl,
    show cDrawsB.shapeDraws (2 * i + 1) = fun _ => 1 from rfl,
    show cDrawsB.scaleDraw (2 * i + 1) = 1 from rfl,
    show ((1 : ℤ) : ℝ) = 1 by norm_num,
    show Int.toNat 1 = 1 from rfl]
  rw [fuzzy_weibull_duration_one, Option.some_bind]
  have hval : random_cost_dur_value 1 1 2 (cDrawsB.valueU i) (cDrawsB.valueDistDraw i)
      = 1 := by
    unfold random_cost_dur_value
    rw [show cDrawsB.valueU i = 1 / 2 from rfl]
    norm_num
  rw [hval, fuzzy_weibull_duration_one, Option.map_some']
  rw [show List.map npRound [1] = [1] from by rw [List.map_singleton, npRound_one]]

noncomputable def psB : ℕ → Project :=
  projects_after_relations cDrawsB 1 2 (some cTup) (some cTup) 2

theorem num_groups_cB : num_groups 2 2 1 = 1 := by
  unfold num_groups
  rw [show (1 : ℚ) * ((2 : ℕ) : ℚ) / ((2 : ℕ) : ℚ) = 1 by push_cast; norm_num]
  rw [Int.floor_one]
  rfl

theorem sorted_group_cB : sorted_group [0, 1] = [0, 1] := by
  apply List.mergeSort_of_sorted
  decide

theorem cB_excl_used : excl_used_groups cDrawsB 2 cTup 0 = [[0, 1]] := by
  show excl_used_groups cDrawsB 2 ((2, 1) :: []) 0 = _
  rw [excl_used_groups, num_groups_cB]
  rw [show cDrawsB.exclGroups 0 = [[0, 1]] from rfl]
  rw [excl_used_groups]
  rfl

theorem cB_prereq_used : prereq_used_groups cDrawsB 2 cTup 0 = [[0, 1]] := by
  show prereq_used_groups cDrawsB 2 ((2, 1) :: []) 0 = _
  rw [prereq_used_groups, num_groups_cB]
  rw [show cDrawsB.prereqGroups 0 = [[0, 1]] from rfl]
  rw [prereq_used_groups]
  rfl

theorem psB_excl0 : (psB 0).exclusion_list = [2] := by
  show (projects_after_relations cDrawsB 1 2 (some cTup) (some cTup) 2 0).exclusion_list = _
  rw [projects_after_relations_excl]
  show groups_exclusion_additions (excl_used_groups cDrawsB 2 cTup 0) 0 = [2]
  rw [cB_excl_used]
  decide

theorem psB_excl1 : (psB 1).exclusion_list = [1] := by
  show (projects_after_relations cDrawsB 1 2 (some cTup) (some cTup) 2 1).exclusion_list = _
  rw [projects_after_relations_excl]
  show groups_exclusion_additions (excl_used_groups cDrawsB 2 cTup 0) 1 = [1]
  rw [cB_excl_used]
  decide

theorem psB_succ0 : (psB 0).successor_list = [2] := by
  show (projects_after_relations cDrawsB 1 2 (some cTup) (some cTup) 2 0).successor_list = _
  rw [projects_after_relations_succ]
  show groups_succ_additions (prereq_used_groups cDrawsB 2 cTup 0) 0 = [2]
  rw [cB_prereq_used]
  unfold groups_succ_additions
  rw [List.map_cons, List.map_nil, List.flatten_cons, List.flatten_nil, List.append_nil]
  rw [group_succ_additions_of sorted_group_cB, if_pos rfl]
  decide

theorem psB_prereq1 : (psB 1).prerequisite_list = [1] := by
  show (projects_after_relations cDrawsB 1 2 (some cTup) (some cTup) 2 1).prerequisite_list = _
  rw [projects_after_relations_prereq]
  show groups_prereq_additions (prereq_used_groups cDrawsB 2 cTup 0) 1 = [1]
  rw [cB_prereq_used]
  unfold groups_prereq_additions
  rw [List.map_cons, List.map_nil, List.flatten_cons, List.flatten_nil, List.append_nil]
  rw [group_prereq_additions_of sorted_group_cB]
  decide

theorem psB_value (j : ℕ) : (psB j).value = [1] := by
  show (projects_after_relations cDrawsB 1 2 (some cTup) (some cTup) 2 j).value = _
  rw [(projects_after_relations_core cDrawsB 1 2 (some cTup) (some cTup) 2 j).2.1]
  unfold base_projects
  rw [generate_project_cB j]
  rfl

theorem cB_conflict : group_conflict psB [0, 1] = false := by
  rw [show ([0, 1] : List ℕ) = 0 :: [1] from rfl, group_conflict]
  rw [show ([1] : List ℕ) = 1 :: [] from rfl, group_conflict, group_conflict]
  rw [psB_excl0]
  simp

theorem cB_tv : total_group_value psB [0, 1] = 2 := by
  unfold total_group_value
  rw [List.map_cons, List.map_cons, List.map_nil]
  rw [psB_value 0, psB_value 1]
  decide

theorem cB_draw : draw_synergy_group cDrawsB psB 2 1 0 = some ([0, 1], 1) := by
  show draw_synergy_group cDrawsB psB 2 (0 + 1) 0 = _
  rw [draw_synergy_group]
  rw [show cDrawsB.synGroup 2 0 = [0, 1] from rfl, cB_conflict]
  simp

theorem cB_groups :
    generate_synergy_groups cDrawsB psB 2 1 1 0 0 = some ([⟨[0, 1], 1⟩], 1, 1) := by
  show generate_synergy_groups cDrawsB psB 2 1 (0 + 1) 0 0 = _
  rw [generate_synergy_groups]
  rw [cB_draw, Option.some_bind]
  dsimp only
  rw [cB_tv]
  rw [if_neg (by norm_num : ¬ (2 : ℤ) ≤ 1)]
  rw [show generate_synergy_groups cDrawsB psB 2 1 0 1 1 = some ([], 1, 1) from by
    rw [generate_synergy_groups]]
  rw [Option.map_some']
  rfl

theorem cB_synpost : generate_synergies_post cDrawsB psB 2 1 cTup = some [⟨[0, 1], 1⟩] := by
  unfold generate_synergies_post
  show generate_synergies_rounds cDrawsB psB 2 1 ((2, 1) :: []) 0 0 = _
  rw [generate_synergies_rounds]
  rw [num_groups_cB]
  rw [cB_groups, Option.some_bind]
  rw [show generate_synergies_rounds cDrawsB psB 2 1 [] 1 1 = some [] from by
    rw [generate_synergies_rounds]]
  rw [Option.map_some']
  rfl

theorem cB_run :
    create_random_projects cDrawsB 1 2 (some cTup) (some cTup) (some cTup) 2 =
      some (psB, [⟨[0, 1], 1⟩]) := by
  unfold create_random_projects
  have hall : (List.range 2).all (fun i => (generate_project cDrawsB 2 1 i).isSome) = true := by
    rw [show List.range 2 = [0, 1] from rfl, List.all_cons, List.all_cons, List.all_nil,
      generate_project_cB 0, generate_project_cB 1]
    rfl
  rw [if_pos hall]
  show (generate_synergies_post cDrawsB psB 2 1 cTup).map (fun syns => (psB, syns)) =
    some (psB, [⟨[0, 1], 1⟩])
  rw [cB_synpost, Option.map_some']

/-! ### Concrete instances for the budget claims -/

/-- Parameters with a negative yearly budget increase (nothing in the code
    forbids this). -/
def cParamDec : InstanceParameters :=
  { num_projects := 1, planning_window := 1, base_budget := 10,
    yearly_budget_increase := -1 }

/-- Parameters with a positive yearly budget increase. -/
def cParamInc : InstanceParameters :=
  { num_projects := 1, planning_window := 1, base_budget := 10,
    yearly_budget_increase := 1 }

theorem psA_duration : (psA 0).duration = 1 := by
  show (projects_after_relations cDrawsA 1 1 none none 2 0).duration = 1
  rw [(projects_after_relations_core cDrawsA 1 1 none none 2 0).2.2.1]
  unfold base_projects
  rw [generate_project_cA 0]
  rfl

theorem cA_maxlen : max_proj_length_of psA 1 = 1 := by
  unfold max_proj_length_of
  rw [show List.range 1 = [0] from rfl, List.map_cons, List.map_nil, psA_duration]
  rfl

theorem cDec_run : create_random_projects_from_param cDrawsA 1 cParamDec = some (psA, []) := by
  unfold create_random_projects_from_param
  show create_random_projects cDrawsA 1 1 none none none 2 = _
  exact cA_run

theorem cInc_run : create_random_projects_from_param cDrawsA 1 cParamInc = some (psA, []) := by
  unfold create_random_projects_from_param
  show create_random_projects cDrawsA 1 1 none none none 2 = _
  exact cA_run

theorem cDec_instance :
    generate_instance cDrawsA 1 cParamDec "Instance 1" =
      some (instance_of cParamDec "Instance 1" (psA, [])) := by
  unfold generate_instance
  rw [cDec_run, Option.map_some']

theorem cInc_instance :
    generate_instance cDrawsA 1 cParamInc "Instance 1" =
      some (instance_of cParamInc "Instance 1" (psA, [])) := by
  unfold generate_instance
  rw [cInc_run, Option.map_some']

theorem cDec_budget : budget_of (param_with_max cParamDec (psA, [])) = [10, 9] := by
  have h1 : param_with_max cParamDec (psA, []) =
      { cParamDec with max_proj_length := 1 } := by
    unfold param_with_max
    rw [show cParamDec.num_projects = 1 from rfl, cA_maxlen]
    rfl
  rw [h1]
  unfold budget_of
  rw [show ({ cParamDec with max_proj_length := 1 } : InstanceParameters).planning_window
      + ({ cParamDec with max_proj_length := 1 } : InstanceParameters).max_proj_length = 2
    from rfl]
  rw [show List.range 2 = [0, 1] from rfl, List.map_cons, List.map_cons, List.map_nil]
  rw [show cParamDec.base_budget = 10 from rfl,
    show cParamDec.yearly_budget_increase = (-1 : ℚ) from rfl]
  norm_num

/-! ### Claim theorems -/

/-- **C1.** For every total magnitude `T ≥ 0` and every duration `D ≥ 1`, a completed
call of `fuzzy_weibull_cost_distribution` returns an ordered sequence of exactly `D`
non-negative numbers whose sum equals `T` exactly (the final period absorbs the
residual `T` minus the sum of all prior periods). -/
theorem c1_fuzzy_weibull_contract {shape_draws : ℕ → ℝ} {scale_draw : ℝ} {fuel : ℕ}
    {T : ℝ} {D : ℕ} {out : List ℝ} (hT : 0 ≤ T) (hD : 1 ≤ D)
    (h : fuzzy_weibull_cost_distribution shape_draws scale_draw fuel T D = some out) :
    out.length = D ∧ out.sum = T ∧ ∀ x ∈ out, 0 ≤ x :=
  fuzzy_weibull_spec hT hD h

/-- Witness for C1 at the concrete input `T = 5`, `D = 1`. -/
theorem c1_witness :
    [(5 : ℝ)].length = 1 ∧ [(5 : ℝ)].sum = 5 ∧ (0 : ℝ) ≤ 5 := by
  obtain ⟨h1, h2, h3⟩ := c1_fuzzy_weibull_contract (by norm_num) (by norm_num)
    (fuzzy_weibull_duration_one 5)
  exact ⟨h1, h2, h3 5 (List.mem_singleton_self 5)⟩

/-- **C2** (code bug, demonstration): in the completed run driven by `cDrawsB`,
projects 0 and 1 are mutually exclusive (`exclusion_list` holds the 1-based ids:
`2 ∈ excl(0)` and `1 ∈ excl(1)`), yet the synergy pass accepts the group `[0, 1]` —
its membership test compares the 0-based index `group[j]` against the 1-based ids, so
the conflict is missed and the run produces a synergy over a mutually exclusive
pair. -/
theorem c2_index_id_mismatch :
    create_random_projects cDrawsB 1 2 (some cTup) (some cTup) (some cTup) 2 =
      some (psB, [⟨[0, 1], 1⟩]) ∧
    (((1 : ℕ) : ℤ) + 1) ∈ (psB 0).exclusion_list ∧
    (((0 : ℕ) : ℤ) + 1) ∈ (psB 1).exclusion_list := by
  refine ⟨cB_run, ?_, ?_⟩
  · rw [psB_excl0]
    norm_num
  · rw [psB_excl1]
    norm_num

/-- **C3** (amended): for every project of a completed generation run,
`len(cost) = duration` and `sum(cost) = total_cost` exactly, `len(value) = duration`,
and `sum(value)` equals the value-rule output with the final period rounded to the
nearest integer — hence within `1/2` of `total_value` (exact only when `total_value`
is an integer, because `value.round()` is applied). -/
theorem c3_project_totals {R : Draws} {fuel N : ℕ} {pt et st : Option (List (ℕ × ℚ))}
    {factor : ℝ} {ps : ℕ → Project} {syns : List Synergy}
    (h : create_random_projects R fuel N pt et st factor = some (ps, syns))
    (i : ℕ) (hi : i < N) :
    (ps i).cost.length = (ps i).duration ∧
    (ps i).cost.sum = ((ps i).total_cost : ℝ) ∧
    (ps i).value.length = (ps i).duration ∧
    |(((ps i).value.sum : ℤ) : ℝ) - total_value_of R factor i| ≤ 1 / 2 := by
  obtain ⟨hall, rfl, -⟩ := create_random_projects_eq_some h
  have hcore := projects_after_relations_core R fuel N pt et factor i
  rw [hcore.1, hcore.2.1, hcore.2.2.1, hcore.2.2.2.1]
  exact base_projects_spec (hall i hi)

/-- **C3** (counterexample to the claim as stated): the completed run driven by
`cDrawsA` produces one project whose value rule returns `total_value = 1/2`, but
`sum(value) = 0`, so `sum(value) == total_value` fails. -/
theorem c3_counterexample :
    create_random_projects cDrawsA 1 1 none none none 2 = some (psA, []) ∧
    (psA 0).value.sum = 0 ∧
    total_value_of cDrawsA 2 0 = 1 / 2 ∧
    (((psA 0).value.sum : ℤ) : ℝ) ≠ total_value_of cDrawsA 2 0 := by
  refine ⟨cA_run, ?_, cA_total_value, ?_⟩
  · rw [psA_value]
    rfl
  · rw [psA_value, cA_total_value]
    norm_num

/-- Witness for the amended C3 at the concrete run driven by `cDrawsA`. -/
theorem c3_witness :
    (psA 0).cost.length = (psA 0).duration ∧
    (psA 0).cost.sum = ((psA 0).total_cost : ℝ) ∧
    (psA 0).value.length = (psA 0).duration ∧
    |(((psA 0).value.sum : ℤ) : ℝ) - total_value_of cDrawsA 2 0| ≤ 1 / 2 :=
  c3_project_totals cA_run 0 (by norm_num)

/-- **C4.** After a completed generation run the exclusion relation is symmetric
over project ids, and no project's own id occurs in its own prerequisite, successor
or exclusion list (given numpy's `replace=False` draw guarantee, stated as
`ExclChoiceND` / `PrereqChoiceND`). -/
theorem c4_relation_invariants {R : Draws} {fuel N : ℕ}
    {pt et st : Option (List (ℕ × ℚ))} {factor : ℝ} {ps : ℕ → Project}
    {syns : List Synergy}
    (h : create_random_projects R fuel N pt et st factor = some (ps, syns))
    (hexnd : ExclChoiceND R N et) (hprend : PrereqChoiceND R N pt) :
    (∀ i j : ℕ, i < N → j < N →
      ((((j : ℤ) + 1) ∈ (ps i).exclusion_list) ↔ (((i : ℤ) + 1) ∈ (ps j).exclusion_list))) ∧
    ∀ i : ℕ, i < N →
      ((i : ℤ) + 1) ∉ (ps i).prerequisite_list ∧
      ((i : ℤ) + 1) ∉ (ps i).successor_list ∧
      ((i : ℤ) + 1) ∉ (ps i).exclusion_list := by
  obtain ⟨-, rfl, -⟩ := create_random_projects_eq_some h
  constructor
  · intro i j _ _
    rw [projects_after_relations_excl, projects_after_relations_excl]
    exact final_exclusions_symm R N et i j
  · intro i _
    refine ⟨?_, ?_, ?_⟩
    · rw [projects_after_relations_prereq]
      exact final_prerequisites_no_self hprend i
    · rw [projects_after_relations_succ]
      exact final_successors_no_self hprend i
    · rw [projects_after_relations_excl]
      exact final_exclusions_no_self hexnd i

theorem cB_excl_nd : ExclChoiceND cDrawsB 2 (some cTup) := by
  show ∀ g ∈ excl_used_groups cDrawsB 2 cTup 0, g.Nodup
  rw [cB_excl_used]
  intro g hg
  rw [List.mem_singleton] at hg
  subst hg
  decide

theorem cB_prereq_nd : PrereqChoiceND cDrawsB 2 (some cTup) := by
  show ∀ g ∈ prereq_used_groups cDrawsB 2 cTup 0, g.Nodup
  rw [cB_prereq_used]
  intro g hg
  rw [List.mem_singleton] at hg
  subst hg
  decide

/-- Witness for C4 at the concrete run driven by `cDrawsB`, instantiated at the
project pair (0, 1). -/
theorem c4_witness :
    ((((1 : ℕ) : ℤ) + 1) ∈ (psB 0).exclusion_list ↔
      (((0 : ℕ) : ℤ) + 1) ∈ (psB 1).exclusion_list) ∧
    (((0 : ℕ) : ℤ) + 1) ∉ (psB 0).prerequisite_list ∧
    (((0 : ℕ) : ℤ) + 1) ∉ (psB 0).successor_list ∧
    (((0 : ℕ) : ℤ) + 1) ∉ (psB 0).exclusion_list := by
  obtain ⟨hsym, hself⟩ := c4_relation_invariants cB_run cB_excl_nd cB_prereq_nd
  exact ⟨hsym 0 1 (by norm_num) (by norm_num), (hself 0 (by norm_num)).1,
    (hself 0 (by norm_num)).2.1, (hself 0 (by norm_num)).2.2⟩

/-- **C5.** After a completed generation run the prerequisite/successor relation is a
mutual inverse over project ids, and within each drawn prerequisite group the member
with the smallest index becomes the sole prerequisite (its id is the only entry of
each other member's `prerequisite_list`) while every other member's id is appended to
its `successor_list` (given the disjointness that numpy's shrinking-pool
`replace=False` draws guarantee). -/
theorem c5_prerequisite_structure {R : Draws} {fuel N : ℕ} {ts : List (ℕ × ℚ)}
    {et st : Option (List (ℕ × ℚ))} {factor : ℝ} {ps : ℕ → Project}
    {syns : List Synergy}
    (h : create_random_projects R fuel N (some ts) et st factor = some (ps, syns))
    (hdisj : PrereqChoiceDisjoint R N (some ts)) :
    (∀ i j : ℕ, i < N → j < N →
      ((((j : ℤ) + 1) ∈ (ps i).successor_list) ↔
        (((i : ℤ) + 1) ∈ (ps j).prerequisite_list))) ∧
    ∀ g ∈ prereq_used_groups R N ts 0, ∀ (p : ℕ) (succs : List ℕ),
      sorted_group g = p :: succs →
      (∀ x ∈ g, p ≤ x) ∧
      ∀ m ∈ succs, (ps m).prerequisite_list = [(p : ℤ) + 1] ∧
        ((m : ℤ) + 1) ∈ (ps p).successor_list := by
  obtain ⟨-, rfl, -⟩ := create_random_projects_eq_some h
  constructor
  · intro i j _ _
    rw [projects_after_relations_succ, projects_after_relations_prereq]
    exact final_prereq_inverse R N (some ts) i j
  · intro g hg p succs hs
    refine ⟨sorted_group_head_min hs, ?_⟩
    intro m hm
    constructor
    · rw [projects_after_relations_prereq]
      exact final_prerequisites_sole hdisj hg hs hm
    · rw [projects_after_relations_succ]
      exact final_successors_contains hg hs hm

theorem cB_prereq_disj : PrereqChoiceDisjoint cDrawsB 2 (some cTup) := by
  show (prereq_used_groups cDrawsB 2 cTup 0).flatten.Nodup
  rw [cB_prereq_used]
  decide

/-- Witness for C5 at the concrete run driven by `cDrawsB`, instantiated at the
drawn group `[0, 1]`. -/
theorem c5_witness :
    ((((1 : ℕ) : ℤ) + 1) ∈ (psB 0).successor_list ↔
      (((0 : ℕ) : ℤ) + 1) ∈ (psB 1).prerequisite_list) ∧
    (psB 1).prerequisite_list = [((0 : ℕ) : ℤ) + 1] ∧
    (((1 : ℕ) : ℤ) + 1) ∈ (psB 0).successor_list := by
  obtain ⟨hinv, hgroups⟩ := c5_prerequisite_structure cB_run cB_prereq_disj
  have hg : [0, 1] ∈ prereq_used_groups cDrawsB 2 cTup 0 := by
    rw [cB_prereq_used]
    exact List.mem_singleton_self _
  have hgrp := hgroups [0, 1] hg 0 [1] sorted_group_cB
  have hm := hgrp.2 1 (List.mem_singleton_self 1)
  exact ⟨hinv 0 1 (by norm_num) (by norm_num), hm.1, hm.2⟩

/-- **C6** (amended): the bonus value of every synergy group of a completed run is an
integer `v` with `1 ≤ v < Σ members' total per-period values` — the upper bound is
exclusive, but the lower bound is *inclusive*: `np.random.randint(1, total)` draws from
`[1, total)`, so `v = 1` is possible. -/
theorem c6_synergy_value_range {R : Draws} {fuel N : ℕ}
    {pt et st : Option (List (ℕ × ℚ))} {factor : ℝ} {ps : ℕ → Project}
    {syns : List Synergy}
    (h : create_random_projects R fuel N pt et st factor = some (ps, syns))
    (hR : R.RandintWF) :
    ∀ syn ∈ syns, 1 ≤ syn.value ∧ syn.value < total_group_value ps syn.project_ids := by
  obtain ⟨-, -, hsyn⟩ := create_random_projects_eq_some h
  rcases hsyn with ⟨-, rfl⟩ | ⟨ts, -, hpost⟩
  · intro syn hs
    cases hs
  · intro syn hs
    obtain ⟨-, htv, m0, hv⟩ := generate_synergies_post_mem hpost syn hs
    rw [hv]
    exact hR 1 _ m0 htv

theorem cB_randint_wf : Draws.RandintWF cDrawsB := by
  intro lo hi k hlt
  exact ⟨le_refl lo, hlt⟩

/-- **C6** (counterexample to the claim as stated): in the completed run driven by
`cDrawsB`, the accepted synergy group `[0, 1]` has member value sum `2` and drawn
bonus value `1` (a value `np.random.randint(1, 2)` always produces), and `1 < 1`
fails — the bonus is *not* strictly greater than 1. -/
theorem c6_counterexample :
    create_random_projects cDrawsB 1 2 (some cTup) (some cTup) (some cTup) 2 =
      some (psB, [⟨[0, 1], 1⟩]) ∧
    Draws.RandintWF cDrawsB ∧
    total_group_value psB [0, 1] = 2 ∧
    ¬ ((1 : ℤ) < 1) :=
  ⟨cB_run, cB_randint_wf, cB_tv, by norm_num⟩

/-- Witness for the amended C6 at the concrete run driven by `cDrawsB`. -/
theorem c6_witness :
    (1 : ℤ) ≤ (Synergy.mk [0, 1] 1).value ∧
    (Synergy.mk [0, 1] 1).value < total_group_value psB (Synergy.mk [0, 1] 1).project_ids :=
  c6_synergy_value_range cB_run cB_randint_wf ⟨[0, 1], 1⟩ (List.mem_singleton_self _)

/-- **C7.** If the synergy pass accepts a group whose members' total per-period value
sum is ≤ 1, the bonus draw `np.random.randint(1, total_group_value)` raises
(`low ≥ high`), i.e. generation fails instead of silently producing a zero-valued
synergy. -/
theorem c7_degenerate_synergy_aborts {R : Draws} {ps : ℕ → Project}
    {size fuel n k m : ℕ} {g : List ℕ} {k' : ℕ}
    (hdraw : draw_synergy_group R ps size fuel k = some (g, k'))
    (htv : total_group_value ps g ≤ 1) :
    generate_synergy_groups R ps size fuel (n + 1) k m = none :=
  generate_synergy_groups_abort hdraw htv

/-- Witness for C7: over default (empty-valued) projects the accepted group `[0, 1]`
has value sum `0 ≤ 1` and the synergy generation aborts. -/
theorem c7_witness :
    generate_synergy_groups cDrawsB (fun _ => default) 2 1 1 0 0 = none := by
  have hdraw : draw_synergy_group cDrawsB (fun _ => default) 2 1 0 = some ([0, 1], 1) := by
    show draw_synergy_group cDrawsB (fun _ => default) 2 (0 + 1) 0 = _
    rw [draw_synergy_group]
    rw [show cDrawsB.synGroup 2 0 = [0, 1] from rfl]
    rw [show group_conflict (fun _ => (default : Project)) [0, 1] = false from by decide]
    simp
  show generate_synergy_groups cDrawsB (fun _ => default) 2 1 (0 + 1) 0 0 = none
  exact c7_degenerate_synergy_aborts hdraw (by decide)

/-- **C8** (amended): for every instance produced by `generate_instance`, the budget
array has length `planning_window + max(duration)`, satisfies
`budget[y] = base_budget + y * yearly_budget_increase`, is non-decreasing *whenever
`yearly_budget_increase ≥ 0`* (for a negative increase it is decreasing), and the
initiation/ongoing budgets are the budget array scaled elementwise by the two
proportions. -/
theorem c8_budget_schedule {R : Draws} {fuel : ℕ} {param : InstanceParameters}
    {identifier : String} {inst : ProjectProblemInstance} {param2 : InstanceParameters}
    (h : generate_instance R fuel param identifier = some (inst, param2)) :
    inst.budget.length =
      param.planning_window + max_proj_length_of inst.projects param.num_projects ∧
    (∀ (y : ℕ) (hy : y < inst.budget.length),
      inst.budget.get ⟨y, hy⟩ =
        param.base_budget + (y : ℚ) * param.yearly_budget_increase) ∧
    (0 ≤ param.yearly_budget_increase →
      ∀ (y1 y2 : ℕ) (h12 : y1 ≤ y2) (hy1 : y1 < inst.budget.length)
        (hy2 : y2 < inst.budget.length),
        inst.budget.get ⟨y1, hy1⟩ ≤ inst.budget.get ⟨y2, hy2⟩) ∧
    inst.initiation_budget = inst.budget.map (· * param.initiation_max_proportion) ∧
    inst.ongoing_budget = inst.budget.map (· * param.ongoing_max_proportion) := by
  rcases Option.map_eq_some'.mp h with ⟨rs, hrs, heq⟩
  have h1 : inst = (instance_of param identifier rs).1 := by rw [heq]
  subst h1
  refine ⟨?_, ?_, ?_, rfl, rfl⟩
  · show (budget_of (param_with_max param rs)).length = _
    rw [budget_of_length]
    rfl
  · intro y hy
    show (budget_of (param_with_max param rs)).get ⟨y, hy⟩ = _
    rw [budget_of_get]
    rfl
  · intro hinc y1 y2 h12 hy1 hy2
    exact @budget_of_monotone (param_with_max param rs) hinc y1 y2 h12 hy1 hy2

/-- **C8** (counterexample to the claim as stated): with
`yearly_budget_increase = -1` the produced budget array is `[10, 9]`, which is
decreasing — the unconditional "non-decreasing" part of the claim fails. -/
theorem c8_counterexample :
    generate_instance cDrawsA 1 cParamDec "Instance 1" =
      some (instance_of cParamDec "Instance 1" (psA, [])) ∧
    (instance_of cParamDec "Instance 1" (psA, [])).1.budget = [10, 9] ∧
    ¬ ((10 : ℚ) ≤ 9) := by
  refine ⟨cDec_instance, ?_, by norm_num⟩
  show budget_of (param_with_max cParamDec (psA, [])) = [10, 9]
  exact cDec_budget

/-- Witness for the amended C8 at the concrete run with a positive increase. -/
theorem c8_witness :
    (instance_of cParamInc "Instance 1" (psA, [])).1.budget.length =
      cParamInc.planning_window +
        max_proj_length_of (instance_of cParamInc "Instance 1" (psA, [])).1.projects
          cParamInc.num_projects ∧
    (instance_of cParamInc "Instance 1" (psA, [])).1.initiation_budget =
      (instance_of cParamInc "Instance 1" (psA, [])).1.budget.map
        (· * cParamInc.initiation_max_proportion) := by
  obtain ⟨hlen, hval, hmono, hinit, hon⟩ := c8_budget_schedule cInc_instance
  exact ⟨hlen, hinit⟩

/-- **C9.** Generation is deterministic: the entire run draws from the single
process-wide generator seeded at the start (`np.random.seed(seed)`), so its output is
a function of the seed and the parameters alone — two runs with identical seeds and
identical parameters are identical. -/
theorem c9_determinism (numpy_stream : ℕ → Draws) (fuel : ℕ)
    (p1 p2 : InstanceParameters) (s1 s2 : ℕ) (hs : s1 = s2) (hp : p1 = p2) :
    create_random_projects_seeded numpy_stream fuel p1 s1 =
      create_random_projects_seeded numpy_stream fuel p2 s2 := by
  subst hs
  subst hp
  rfl

/-- Witness for C9 at a concrete seed and parameter record. -/
theorem c9_witness :
    create_random_projects_seeded (fun _ => cDrawsA) 1 cParamInc 7 =
      create_random_projects_seeded (fun _ => cDrawsA) 1 cParamInc 7 :=
  c9_determinism (fun _ => cDrawsA) 1 cParamInc cParamInc 7 7 rfl rfl

/-- **C10.** A completed `generate_instance` call updates the caller's parameter
record: `max_proj_length` is set to the maximum duration among the generated
projects, and every other field is left unchanged. -/
theorem c10_param_mutation {R : Draws} {fuel : ℕ} {param : InstanceParameters}
    {identifier : String} {inst : ProjectProblemInstance} {param2 : InstanceParameters}
    (h : generate_instance R fuel param identifier = some (inst, param2)) :
    param2.max_proj_length = max_proj_length_of inst.projects param.num_projects ∧
    (∀ i < param.num_projects, (inst.projects i).duration ≤ param2.max_proj_length) ∧
    (param2.max_proj_length = 0 ∨
      ∃ i < param.num_projects, (inst.projects i).duration = param2.max_proj_length) ∧
    param2.num_projects = param.num_projects ∧
    param2.planning_window = param.planning_window ∧
    param2.base_budget = param.base_budget ∧
    param2.yearly_budget_increase = param.yearly_budget_increase ∧
    param2.initiation_max_proportion = param.initiation_max_proportion ∧
    param2.ongoing_max_proportion = param.ongoing_max_proportion ∧
    param2.prerequisite_tuples = param.prerequisite_tuples ∧
    param2.exclusion_tuples = param.exclusion_tuples ∧
    param2.synergy_tuples = param.synergy_tuples ∧
    param2.discount_rate = param.discount_rate ∧
    param2.factor = param.factor := by
  rcases Option.map_eq_some'.mp h with ⟨rs, hrs, heq⟩
  have h1 : inst = (instance_of param identifier rs).1 := by rw [heq]
  have h2 : param2 = (instance_of param identifier rs).2 := by rw [heq]
  subst h1
  subst h2
  refine ⟨rfl, ?_, ?_, rfl, rfl, rfl, rfl, rfl, rfl, rfl, rfl, rfl, rfl, rfl⟩
  · exact (max_proj_length_of_spec rs.1 param.num_projects).1
  · exact (max_proj_length_of_spec rs.1 param.num_projects).2

/-- Witness for C10 at the concrete run driven by `cDrawsA`. -/
theorem c10_witness :
    (instance_of cParamDec "Instance 1" (psA, [])).2.max_proj_length =
      max_proj_length_of (instance_of cParamDec "Instance 1" (psA, [])).1.projects
        cParamDec.num_projects ∧
    (instance_of cParamDec "Instance 1" (psA, [])).2.base_budget =
      cParamDec.base_budget := by
  obtain ⟨hmax, -, -, -, -, hbase, -⟩ := c10_param_mutation cDec_instance
  exact ⟨hmax, hbase⟩
